import Mathlib

/-!
Verification development for the Telegram userbot in src/userbot.py.

The development shallowly embeds the helper functions of the program:
the webhook delivery helper send_or_queue, the SQLite-backed retry queue
(save_to_queue / resend_queue), the history export loop (read_history),
the polling loop (poll_channels), and the text cleanup pipeline the
specification describes for the export variants.  External effects
(requests.post, the Telegram client) are passed in as oracles; machine
integers are modelled as Nat/Int; the JSON serialisation performed by
json.dumps / json.loads on the queue payload object is modelled by an
explicit encoder and parser over character lists.
-/

/-- Whitespace characters relevant to the program: space, tab, newline,
carriage return (the characters the regexes and strip() calls treat as
whitespace in the texts at hand). -/
def isWS (c : Char) : Bool :=
  c = ' ' || c = '\t' || c = '\n' || c = '\r'

/-- The payload dict built by process_message in src/userbot.py:
chat_id, chat_title (which is None when the chat has neither a title
nor a username), message_id, date (None when the message has no date),
and text.  Fields are listed in the insertion order of the Python dict,
which is the key order json.dumps emits. -/
structure Payload where
  chat_id : Int
  chat_title : Option String
  message_id : Nat
  date : Option Int
  text : String
deriving DecidableEq

/-- Decimal digit character for a digit value below 10. -/
def digitCh (d : Nat) : Char := Char.ofNat (48 + d)

/-- Decimal digits of a natural number, most significant first, written
with explicit fuel so that the definition is structural and evaluates in
the kernel.  With fuel at least n this is the usual decimal form of n,
with natCharsCore fuel 0 = []. -/
def natCharsCore : Nat → Nat → List Char
  | 0, _ => []
  | _, 0 => []
  | fuel + 1, n + 1 =>
    natCharsCore fuel ((n + 1) / 10) ++ [digitCh ((n + 1) % 10)]

/-- Decimal representation of a natural number as json.dumps prints a
nonnegative int. -/
def natChars (n : Nat) : List Char :=
  if n = 0 then ['0'] else natCharsCore n n

/-- Decimal representation of an integer as json.dumps prints an int. -/
def intChars (i : Int) : List Char :=
  if i < 0 then '-' :: natChars i.natAbs else natChars i.natAbs

/-- Lowercase hexadecimal digit character. -/
def hexCh (d : Nat) : Char :=
  if d < 10 then Char.ofNat (48 + d) else Char.ofNat (87 + d)

/-- JSON escaping of a single character, following json.dumps with
ensure_ascii=False: the two mandatory escapes, the short control escapes
\n \t \r \b \f, a \u00xx escape for the remaining control characters,
and every other character emitted unchanged. -/
def escCh (c : Char) : List Char :=
  if c = '"' then ['\\', '"']
  else if c = '\\' then ['\\', '\\']
  else if c = '\n' then ['\\', 'n']
  else if c = '\t' then ['\\', 't']
  else if c = '\r' then ['\\', 'r']
  else if c = Char.ofNat 8 then ['\\', 'b']
  else if c = Char.ofNat 12 then ['\\', 'f']
  else if c.toNat < 32 then
    ['\\', 'u', '0', '0', hexCh (c.toNat / 16), hexCh (c.toNat % 16)]
  else [c]

/-- JSON string literal, quotes included. -/
def strChars (s : String) : List Char :=
  '"' :: (s.toList.map escCh).flatten ++ ['"']

/-- JSON for an optional int field (null when absent). -/
def optIntChars : Option Int → List Char
  | none => "null".toList
  | some i => intChars i

/-- JSON for an optional string field (null when absent). -/
def optStrChars : Option String → List Char
  | none => "null".toList
  | some s => strChars s

/-- The exact character sequence json.dumps(payload, ensure_ascii=False)
produces for the payload dict of process_message: default separators
(comma-space and colon-space) and the dict insertion key order. -/
def encodePayload (p : Payload) : List Char :=
  "\x7b\"chat_id\": ".toList ++ intChars p.chat_id
    ++ ", \"chat_title\": ".toList ++ optStrChars p.chat_title
    ++ ", \"message_id\": ".toList ++ natChars p.message_id
    ++ ", \"date\": ".toList ++ optIntChars p.date
    ++ ", \"text\": ".toList ++ strChars p.text
    ++ ['\x7d']

/-- The pending.db queue table: rows (id, payload text) kept in ascending
id order, which is both the AUTOINCREMENT insertion order and the order
SELECT ... ORDER BY id ASC returns, together with the id the next INSERT
will receive. -/
structure QueueState where
  rows : List (Nat × String)
  nextId : Nat
deriving DecidableEq

/-- save_to_queue: INSERT a row holding json.dumps of the payload. -/
def saveToQueue (st : QueueState) (p : Payload) : QueueState :=
  ⟨st.rows ++ [(st.nextId, String.mk (encodePayload p))], st.nextId + 1⟩

/-- Result of one requests.post call: an HTTP response status, or a
raised network exception. -/
inductive PostResult where
  | status (code : Nat)
  | exn
deriving DecidableEq

/-- Webhook configuration read from the environment; os.getenv yields
None for an unset variable. -/
structure Config where
  webhookUrl : Option String
  webhookToken : Option String
  webhookHeader : String
deriving DecidableEq

/-- Python truthiness of an optional string: None and the empty string
are falsy. -/
def strTruthy : Option String → Bool
  | none => false
  | some s => !s.isEmpty

/-- The headers dict send_or_queue and resend_queue build: the auth
header exactly when a token is configured (truthy). -/
def authHeaders (cfg : Config) : List (String × String) :=
  match cfg.webhookToken with
  | none => []
  | some t => if t.isEmpty then [] else [(cfg.webhookHeader, t)]

/-- send_or_queue from src/userbot.py with requests.post supplied as the
oracle post (url, headers, JSON payload).  With no configured URL the
payload is queued immediately; otherwise a 200 response is success and
anything else (other status, exception) queues the payload.  Returns the
boolean result and the queue state afterwards. -/
def sendOrQueue (cfg : Config)
    (post : String → List (String × String) → Payload → PostResult)
    (st : QueueState) (p : Payload) : Bool × QueueState :=
  match cfg.webhookUrl with
  | none => (false, saveToQueue st p)
  | some url =>
    if url.isEmpty then (false, saveToQueue st p)
    else
      match post url (authHeaders cfg) p with
      | PostResult.status code =>
        if code = 200 then (true, st) else (false, saveToQueue st p)
      | PostResult.exn => (false, saveToQueue st p)

/-- Leading run of decimal digits of a character list together with the
remainder. -/
def takeDigits (l : List Char) : List Char × List Char :=
  (l.takeWhile (fun c => c.isDigit), l.dropWhile (fun c => c.isDigit))

/-- Value of a big-endian list of decimal digit characters. -/
def digitsVal (ds : List Char) : Nat :=
  ds.foldl (fun a c => 10 * a + (c.toNat - 48)) 0

/-- Check that a list does not start with a character satisfying p (used
to state where a token such as a digit run must end). -/
def headFailsB (p : Char → Bool) : List Char → Bool
  | [] => true
  | c :: _ => !p c

/-- Parse a nonempty run of decimal digits. -/
def parseNat (l : List Char) : Option (Nat × List Char) :=
  match takeDigits l with
  | ([], _) => none
  | (d :: ds, rest) => some (digitsVal (d :: ds), rest)

/-- Parse a JSON integer (optional minus sign, then digits). -/
def parseInt : List Char → Option (Int × List Char)
  | [] => none
  | c :: rest =>
    if c = '-' then (parseNat rest).map (fun x => (-(x.1 : Int), x.2))
    else (parseNat (c :: rest)).map (fun x => ((x.1 : Int), x.2))

/-- Value of a lowercase hexadecimal digit character. -/
def hexVal (c : Char) : Nat :=
  if c.isDigit then c.toNat - 48 else c.toNat - 87

/-- Decoding of the single-character JSON escapes. -/
def escDecode (e : Char) : Option Char :=
  if e = '"' then some '"'
  else if e = '\\' then some '\\'
  else if e = '/' then some '/'
  else if e = 'n' then some '\n'
  else if e = 't' then some '\t'
  else if e = 'r' then some '\r'
  else if e = 'b' then some (Char.ofNat 8)
  else if e = 'f' then some (Char.ofNat 12)
  else none

/-- Parse the body of a JSON string up to and including the closing
quote, handling backslash escapes; models how json.loads reads back the
string literals json.dumps wrote. -/
def parseStrBody : List Char → Option (List Char × List Char)
  | [] => none
  | c :: rest =>
    if c = '"' then some ([], rest)
    else if c = '\\' then
      match rest with
      | 'u' :: h1 :: h2 :: h3 :: h4 :: rest2 =>
        (parseStrBody rest2).map (fun x =>
          (Char.ofNat (((hexVal h1 * 16 + hexVal h2) * 16 + hexVal h3) * 16 + hexVal h4) :: x.1,
            x.2))
      | e :: rest2 =>
        match escDecode e with
        | some d => (parseStrBody rest2).map (fun x => (d :: x.1, x.2))
        | none => none
      | [] => none
    else (parseStrBody rest).map (fun x => (c :: x.1, x.2))

/-- Drop an expected literal prefix, failing when it is absent. -/
def dropLit : List Char → List Char → Option (List Char)
  | [], l => some l
  | _ :: _, [] => none
  | c :: ls, x :: xs => if x = c then dropLit ls xs else none

/-- Parse null or a JSON integer. -/
def parseOptInt (l : List Char) : Option (Option Int × List Char) :=
  match dropLit "null".toList l with
  | some rest => some (none, rest)
  | none => (parseInt l).map (fun x => (some x.1, x.2))

/-- Parse a JSON string literal, quotes included. -/
def parseStrLit (l : List Char) : Option (List Char × List Char) :=
  match l with
  | '"' :: rest => parseStrBody rest
  | _ => none

/-- Parse null or a JSON string literal. -/
def parseOptStr (l : List Char) : Option (Option String × List Char) :=
  match dropLit "null".toList l with
  | some rest => some (none, rest)
  | none => (parseStrLit l).map (fun x => (some (String.mk x.1), x.2))

/-- Parse the serialised payload object in the exact shape encodePayload
emits, which is the shape json.dumps gives the process_message dict.
json.loads accepts this grammar, and every row the program ever stores
was written by json.dumps, so on reachable rows this parser and
json.loads accept the same texts and agree on the value. -/
def parsePayloadChars (l : List Char) : Option Payload :=
  (dropLit "\x7b\"chat_id\": ".toList l).bind (fun l1 =>
  (parseInt l1).bind (fun p1 =>
  (dropLit ", \"chat_title\": ".toList p1.2).bind (fun l2 =>
  (parseOptStr l2).bind (fun p2 =>
  (dropLit ", \"message_id\": ".toList p2.2).bind (fun l3 =>
  (parseNat l3).bind (fun p3 =>
  (dropLit ", \"date\": ".toList p3.2).bind (fun l4 =>
  (parseOptInt l4).bind (fun p4 =>
  (dropLit ", \"text\": ".toList p4.2).bind (fun l5 =>
  (parseStrLit l5).bind (fun p5 =>
  (dropLit "\x7d".toList p5.2).bind (fun l6 =>
  if l6.isEmpty then
    some ⟨p1.1, p2.1, p3.1, p4.1, String.mk p5.1⟩
  else none)))))))))))

/-- json.loads of a stored queue row, as resend_queue performs it. -/
def decodePayload (s : String) : Option Payload :=
  parsePayloadChars s.toList

/-- One pass of resend_queue over the rows fetched in ascending id order:
a row whose payload text fails json.loads is deleted and the pass
continues; a row delivered with status 200 is deleted and the pass
continues; on any other status or on an exception the pass stops, leaving
that row and every later row in the store.  The oracle send models
requests.post of the decoded payload to the configured webhook.  Returns
the (id, payload) pairs delivered and the rows remaining in the store. -/
def resendRows (send : Payload → PostResult) :
    List (Nat × String) → List (Nat × Payload) × List (Nat × String)
  | [] => ([], [])
  | (i, s) :: rest =>
    match decodePayload s with
    | none => resendRows send rest
    | some p =>
      match send p with
      | PostResult.status code =>
        if code = 200 then
          ((i, p) :: (resendRows send rest).1, (resendRows send rest).2)
        else ([], (i, s) :: rest)
      | PostResult.exn => ([], (i, s) :: rest)

/-- Rows a resend pass removes without stopping: rows whose stored text
fails json.loads (deleted as malformed) and rows the endpoint
acknowledges with status 200 (delivered and deleted). -/
def removableRow (send : Payload → PostResult) (e : Nat × String) : Prop :=
  decodePayload e.2 = none ∨
    ∃ p, decodePayload e.2 = some p ∧ send p = PostResult.status 200

/-- The (id, payload) pairs among some rows that decode, in row order;
for a removable prefix these are exactly the rows the pass delivers. -/
def deliveredRows (rows : List (Nat × String)) : List (Nat × Payload) :=
  rows.filterMap (fun e =>
    match decodePayload e.2 with
    | some p => some (e.1, p)
    | none => none)

/-- Shape of the outcome of send_or_queue as a function of the response
the endpoint gave. -/
def sendOutcome (st : QueueState) (p : Payload) : PostResult → Bool × QueueState
  | PostResult.status code =>
    if code = 200 then (true, st) else (false, saveToQueue st p)
  | PostResult.exn => (false, saveToQueue st p)

/-- A fetched Telegram message as far as the program reads it: message
id, the chat fields the payload uses, the date, and the markdown text
and caption (None models a missing attribute value). -/
structure Msg where
  id : Nat
  chatId : Int
  chatTitle : Option String
  chatUsername : Option String
  date : Option Int
  text : Option String
  caption : Option String
deriving DecidableEq

/-- process_message builds the payload from a message: the markdown text
(falling back to the caption when the text is falsy, and to the empty
string when both are), the chat title with Python or-fallback to the
username, the chat id, the message id and the date.  The function body
is total; delivery errors are caught inside send_or_queue. -/
def processPayload (m : Msg) : Payload :=
  ⟨m.chatId,
    (if strTruthy m.chatTitle then m.chatTitle else m.chatUsername),
    m.id,
    m.date,
    (if strTruthy m.text then m.text.getD ""
     else if strTruthy m.caption then m.caption.getD "" else "")⟩

/-- pyrogram get_chat_history over the channel history (newest message
first): by its documented contract a limit of 0 means no limit (the
whole history is iterated), while a positive limit caps the number of
yielded messages. -/
def chatHistory (available : List Msg) (limit : Nat) : List Msg :=
  if limit = 0 then available else available.take limit

/-- The collection loop of read_history: append each yielded message and
break as soon as the accumulated count reaches the requested count; the
check runs after the append. -/
def collectMsgs (count : Nat) (acc : List Msg) : List Msg → List Msg
  | [] => acc
  | m :: rest =>
    if count ≤ (acc ++ [m]).length then acc ++ [m]
    else collectMsgs count (acc ++ [m]) rest

/-- The per-message loop of read_history over the fetched messages
(oldest first): each message is processed inside try/except; an
unexpected exception is logged and only that message is skipped, the
loop continuing with the rest.  proc is the processing oracle
(process_message together with its delivery); the result records each
attempted message in order with True for a processed message and False
for one skipped by the exception handler. -/
def historyLoop (proc : Msg -> Except String Unit) : List Msg → List (Msg × Bool)
  | [] => []
  | m :: rest =>
    (match proc m with
     | Except.ok _ => (m, true)
     | Except.error _ => (m, false)) :: historyLoop proc rest

/-- read_history end to end: fetch through get_chat_history with the
exact-count break, reverse to oldest first, then run the processing
loop. -/
def readHistoryRun (proc : Msg -> Except String Unit) (available : List Msg)
    (count : Nat) : List (Msg × Bool) :=
  historyLoop proc (collectMsgs count [] (chatHistory available count)).reverse

/-- Number of messages of a history run that were processed (forwarded
or queued), as opposed to skipped by the exception handler. -/
def processedCount (res : List (Msg × Bool)) : Nat :=
  (res.filter (fun r => r.2)).length

/-- The inner per-channel loop of poll_channels over the fetched
messages oldest first: a message is processed exactly when its id
exceeds the current last-seen id, which is then set to that id.
Accumulates the processed messages in order. -/
def pollFold : Nat × List Msg → List Msg → Nat × List Msg
  | st, [] => st
  | (last, acc), m :: rest =>
    if last < m.id then pollFold (m.id, acc ++ [m]) rest
    else pollFold (last, acc) rest

/-- One channel of one polling cycle: the fetch yields newest first and
the loop walks the reverse. -/
def pollChannel (last : Nat) (fetched : List Msg) : Nat × List Msg :=
  pollFold (last, []) fetched.reverse

/-- One polling cycle over the channel list: each channel is fetched and
walked with its own last-seen entry, and the entry is updated in the
map (the Python dict is keyed by str(chat_id); distinct ids give
distinct keys, modelled as a function on chat ids). -/
def pollCycle (fetch : Int → List Msg) :
    List Int → (Int → Nat) → (Int → Nat) × List (Int × Msg)
  | [], lastIds => (lastIds, [])
  | ch :: chans, lastIds =>
    let r := pollChannel (lastIds ch) (fetch ch)
    let rest := pollCycle fetch chans (fun c => if c = ch then r.1 else lastIds c)
    (rest.1, r.2.map (fun m => (ch, m)) ++ rest.2)

/-- The daemon polling loop across successive cycles; the fetch oracle
may differ between cycles.  Returns the final last-seen map and the
processed (channel, message) pairs of all cycles in order. -/
def pollRun : List (Int → List Msg) → List Int → (Int → Nat) → (Int → Nat) × List (Int × Msg)
  | [], _, lastIds => (lastIds, [])
  | fetch :: fetches, chans, lastIds =>
    let c := pollCycle fetch chans lastIds
    let rest := pollRun fetches chans c.1
    (rest.1, c.2 ++ rest.2)

/-- Space or tab, the characters the whitespace-collapsing regex of the
cleanup pipeline matches. -/
def isSpTab (c : Char) : Bool :=
  c = ' ' || c = '\t'

/-- Check whether a character list starts with the given pattern. -/
def startsWithL : List Char → List Char → Bool
  | [], _ => true
  | _ :: _, [] => false
  | p :: ps, c :: cs => if p = c then startsWithL ps cs else false

/-- Modelled from the spec: the raw URL and t.me link patterns of the
text cleanup (the cleanup code itself belongs to repository variants not
present under src/).  A link starts with http://, https:// or t.me/ and
extends over the following non-whitespace characters. -/
def atUrl (l : List Char) : Bool :=
  startsWithL ['h', 't', 't', 'p', ':', '/', '/'] l ||
    startsWithL ['h', 't', 't', 'p', 's', ':', '/', '/'] l ||
    startsWithL ['t', '.', 'm', 'e', '/'] l

/-- Whether any suffix of the text starts a raw URL or t.me link: the
text contains a substring matching the link pattern. -/
def containsUrl : List Char → Bool
  | [] => false
  | c :: cs => atUrl (c :: cs) || containsUrl cs

/-- Modelled from the spec: the link-stripping pass.  Walking the text,
a match of the link pattern switches into a skipping state that consumes
the rest of the non-whitespace run; every other character is kept. -/
def stripLinksGo : Bool → List Char → List Char
  | _, [] => []
  | skipping, c :: cs =>
    if skipping && !isWS c then stripLinksGo true cs
    else if atUrl (c :: cs) then stripLinksGo true cs
    else c :: stripLinksGo false cs

/-- Strip raw URLs and t.me links from the text. -/
def stripLinks (l : List Char) : List Char :=
  stripLinksGo false l

/-- Word characters as matched by the mention pattern. -/
def isWordCh (c : Char) : Bool :=
  c.isAlphanum || c = '_'

/-- Modelled from the spec: the optional mention-stripping pass, which
removes an at-sign followed by a nonempty run of word characters. -/
def stripMentionsGo : Bool → List Char → List Char
  | _, [] => []
  | skipping, c :: cs =>
    if skipping && isWordCh c then stripMentionsGo true cs
    else if c = '@' && (match cs with | d :: _ => isWordCh d | [] => false) then
      stripMentionsGo true cs
    else c :: stripMentionsGo false cs

/-- Strip at-mentions from the text. -/
def stripMentions (l : List Char) : List Char :=
  stripMentionsGo false l

/-- Modelled from the spec: collapse every run of spaces and tabs to a
single space (the space is emitted at the last character of the run). -/
def collapseSpaces : List Char → List Char
  | [] => []
  | c :: cs =>
    if isSpTab c then
      match cs with
      | [] => [' ']
      | d :: _ => if isSpTab d then collapseSpaces cs else ' ' :: collapseSpaces cs
    else c :: collapseSpaces cs

/-- Split the text into its newline-separated lines. -/
def splitLinesCL : List Char → List (List Char)
  | [] => [[]]
  | c :: cs =>
    if c = '\n' then [] :: splitLinesCL cs
    else
      match splitLinesCL cs with
      | [] => [[c]]
      | h :: t => (c :: h) :: t

/-- Join lines back with single newlines. -/
def joinLinesCL : List (List Char) → List Char
  | [] => []
  | [x] => x
  | x :: y :: t => x ++ '\n' :: joinLinesCL (y :: t)

/-- Drop leading whitespace. -/
def ltrimWS (l : List Char) : List Char :=
  l.dropWhile isWS

/-- Drop trailing whitespace. -/
def rtrimWS (l : List Char) : List Char :=
  (l.reverse.dropWhile isWS).reverse

/-- Trim leading and trailing whitespace, as str.strip(). -/
def trimWS (l : List Char) : List Char :=
  rtrimWS (ltrimWS l)

/-- Modelled from the spec: trim each line of the text. -/
def trimLines (l : List Char) : List Char :=
  joinLinesCL ((splitLinesCL l).map trimWS)

/-- Modelled from the spec: collapse three or more consecutive newlines
to exactly two; equivalently, drop every newline immediately followed by
two newlines. -/
def collapseNewlines : List Char → List Char
  | [] => []
  | c :: cs =>
    if c = '\n' then
      match cs with
      | d :: e :: _ =>
        if d = '\n' && e = '\n' then collapseNewlines cs else c :: collapseNewlines cs
      | _ => c :: collapseNewlines cs
    else c :: collapseNewlines cs

/-- Modelled from the spec: emoji recognised by Unicode code-point
ranges (the symbol and emoticon blocks the cleanup removes). -/
def isEmoji (c : Char) : Bool :=
  (0x1F000 ≤ c.toNat && c.toNat ≤ 0x1FAFF) ||
    (0x2600 ≤ c.toNat && c.toNat ≤ 0x27BF) ||
    (0x2190 ≤ c.toNat && c.toNat ≤ 0x21FF)

/-- Remove emoji characters from the text. -/
def stripEmoji (l : List Char) : List Char :=
  l.filter (fun c => !isEmoji c)

/-- The optional switches of the cleanup pipeline. -/
structure CleanFlags where
  removeLinks : Bool
  removeMentions : Bool
  removeEmoji : Bool
deriving DecidableEq

/-- Modelled from the spec: the text cleanup pipeline of the export
variants, in the order the spec gives: strip URLs and t.me links;
optionally strip mentions; collapse space and tab runs to one space;
trim each line; collapse three or more newlines to two; optionally
strip emoji; final trim.  The function is total: cleanup never
raises. -/
def cleanupText (fl : CleanFlags) (l : List Char) : List Char :=
  trimWS
    ((fun s5 => if fl.removeEmoji then stripEmoji s5 else s5)
      (collapseNewlines
        (trimLines
          (collapseSpaces
            ((fun s1 => if fl.removeMentions then stripMentions s1 else s1)
              (if fl.removeLinks then stripLinks l else l))))))

/-- Whether a list is empty or starts with whitespace; the output of a
skipping state and the tail of a block decomposition have this shape. -/
def WSheadB : List Char → Bool
  | [] => true
  | c :: _ => isWS c

/-- The maximal runs of non-whitespace characters of the text, in
order.  A link pattern match never spans whitespace, so the pipeline
stages that only touch whitespace leave these runs, and hence the
presence of link matches, unchanged. -/
def blocks : List Char → List (List Char)
  | [] => []
  | c :: cs =>
    if isWS c then blocks cs
    else (c :: cs.takeWhile (fun x => !isWS x)) :: blocks (cs.dropWhile (fun x => !isWS x))
termination_by l => l.length
decreasing_by
  · simp
  · simp only [List.length_cons]
    exact Nat.lt_succ_of_le (List.dropWhile_sublist _).length_le

/-- C1: with a configured endpoint, send_or_queue issues exactly one post
of the payload to that endpoint with the auth headers; if the response is
status 200 it returns True and leaves the queue untouched, and on any
other status or on an exception it appends the payload to the queue and
returns False. -/
theorem sendOrQueue_spec (cfg : Config)
    (post : String → List (String × String) → Payload → PostResult)
    (st : QueueState) (p : Payload) (url : String)
    (hurl : cfg.webhookUrl = some url) (hne : url.isEmpty = false)
    (r : PostResult) (hr : post url (authHeaders cfg) p = r) :
    sendOrQueue cfg post st p = sendOutcome st p r := by
  cases r with
  | status code => simp [sendOrQueue, hurl, hne, hr, sendOutcome]
  | exn => simp [sendOrQueue, hurl, hne, hr, sendOutcome]

/-- Witness for C1 at a concrete configuration, payload and endpoint
behaviour (a 500 response), checking the queued row explicitly. -/
theorem sendOrQueue_spec_witness :
    sendOrQueue ⟨some "http://n8n", some "tok", "X-N8N-Auth"⟩
      (fun _ _ _ => PostResult.status 500) ⟨[], 1⟩
      ⟨-100123, some "t", 7, some 1700000000, "hello"⟩ =
      (false, saveToQueue ⟨[], 1⟩ ⟨-100123, some "t", 7, some 1700000000, "hello"⟩) := by
  have h := sendOrQueue_spec ⟨some "http://n8n", some "tok", "X-N8N-Auth"⟩
    (fun _ _ _ => PostResult.status 500) ⟨[], 1⟩
    ⟨-100123, some "t", 7, some 1700000000, "hello"⟩ "http://n8n" rfl rfl
    (PostResult.status 500) rfl
  exact h.trans (by decide)

/-- C9: when no webhook URL is configured (the variable is unset or
empty), send_or_queue stores the payload in the queue and returns False,
and its result does not depend on the HTTP oracle at all: no request is
attempted. -/
theorem sendOrQueue_noUrl (cfg : Config)
    (post post' : String → List (String × String) → Payload → PostResult)
    (st : QueueState) (p : Payload)
    (h : strTruthy cfg.webhookUrl = false) :
    sendOrQueue cfg post st p = (false, saveToQueue st p) ∧
    sendOrQueue cfg post st p = sendOrQueue cfg post' st p := by
  cases hu : cfg.webhookUrl with
  | none => constructor <;> simp [sendOrQueue, hu]
  | some url =>
    have he : url.isEmpty = true := by
      rw [hu] at h
      simpa [strTruthy] using h
    constructor <;> simp [sendOrQueue, hu, he]

/-- Witness for C9: unset URL, a concrete payload, and two different
HTTP oracles. -/
theorem sendOrQueue_noUrl_witness :
    sendOrQueue ⟨none, none, "X-N8N-Auth"⟩ (fun _ _ _ => PostResult.status 200) ⟨[], 1⟩
        ⟨5, none, 1, none, "x"⟩ =
      (false, saveToQueue ⟨[], 1⟩ ⟨5, none, 1, none, "x"⟩) ∧
    sendOrQueue ⟨none, none, "X-N8N-Auth"⟩ (fun _ _ _ => PostResult.status 200) ⟨[], 1⟩
        ⟨5, none, 1, none, "x"⟩ =
      sendOrQueue ⟨none, none, "X-N8N-Auth"⟩ (fun _ _ _ => PostResult.exn) ⟨[], 1⟩
        ⟨5, none, 1, none, "x"⟩ :=
  sendOrQueue_noUrl ⟨none, none, "X-N8N-Auth"⟩ (fun _ _ _ => PostResult.status 200)
    (fun _ _ _ => PostResult.exn) ⟨[], 1⟩ ⟨5, none, 1, none, "x"⟩ rfl

/-- Dropping a literal prefix from a list that starts with it succeeds
and returns the remainder. -/
theorem dropLit_append (a r : List Char) : dropLit a (a ++ r) = some r := by
  induction a with
  | nil => rfl
  | cons c ls ih => simp [dropLit, ih]

/-- Digit characters produced by digitCh are decimal digits. -/
theorem digitCh_isDigit : ∀ d, d < 10 → (digitCh d).isDigit = true := by decide

/-- Numeric value of a digit character produced by digitCh. -/
theorem digitCh_val : ∀ d, d < 10 → (digitCh d).toNat - 48 = d := by decide

/-- Every character of natCharsCore is a decimal digit. -/
theorem natCharsCore_isDigit :
    ∀ fuel n c, c ∈ natCharsCore fuel n → c.isDigit = true := by
  intro fuel
  induction fuel with
  | zero => intro n c h; simp [natCharsCore] at h
  | succ fuel ih =>
    intro n c h
    cases n with
    | zero => simp [natCharsCore] at h
    | succ m =>
      simp only [natCharsCore, List.mem_append, List.mem_singleton] at h
      rcases h with h | h
      · exact ih _ _ h
      · subst h; exact digitCh_isDigit _ (Nat.mod_lt _ (by norm_num))

/-- Value computed by digitsVal after appending one digit character. -/
theorem digitsVal_append (ds : List Char) (c : Char) :
    digitsVal (ds ++ [c]) = 10 * digitsVal ds + (c.toNat - 48) := by
  simp [digitsVal, List.foldl_append]

/-- With enough fuel, natCharsCore is left inverse to digitsVal. -/
theorem digitsVal_natCharsCore :
    ∀ fuel n, n ≤ fuel → digitsVal (natCharsCore fuel n) = n := by
  intro fuel
  induction fuel with
  | zero =>
    intro n h
    interval_cases n
    simp [natCharsCore, digitsVal]
  | succ fuel ih =>
    intro n h
    cases n with
    | zero => simp [natCharsCore, digitsVal]
    | succ m =>
      have hdiv : (m + 1) / 10 ≤ fuel := by
        have h1 : (m + 1) / 10 < m + 1 := Nat.div_lt_self (Nat.succ_pos m) (by norm_num)
        omega
      simp only [natCharsCore, digitsVal_append, ih _ hdiv,
        digitCh_val _ (Nat.mod_lt _ (by norm_num))]
      omega

/-- natChars always produces at least one character. -/
theorem natChars_ne_nil (n : Nat) : natChars n ≠ [] := by
  unfold natChars
  split
  · simp
  · rename_i h
    cases n with
    | zero => exact absurd rfl h
    | succ m => simp [natCharsCore]

/-- Every character of natChars is a decimal digit. -/
theorem natChars_isDigit (n : Nat) : ∀ c ∈ natChars n, c.isDigit = true := by
  intro c hc
  unfold natChars at hc
  split at hc
  · simp at hc; subst hc; decide
  · exact natCharsCore_isDigit _ _ _ hc

/-- natChars is the decimal form of its argument. -/
theorem digitsVal_natChars (n : Nat) : digitsVal (natChars n) = n := by
  unfold natChars
  split
  · rename_i h; subst h; decide
  · exact digitsVal_natCharsCore n n le_rfl

/-- Parsing the decimal form of n followed by a non-digit remainder
yields n and that remainder. -/
theorem parseNat_append (n : Nat) (r : List Char)
    (hr : headFailsB (fun c => c.isDigit) r = true) :
    parseNat (natChars n ++ r) = some (n, r) := by
  have htake : (natChars n ++ r).takeWhile (fun c => c.isDigit) = natChars n := by
    rw [List.takeWhile_append_of_pos (natChars_isDigit n)]
    cases r with
    | nil => simp
    | cons c t =>
      simp only [headFailsB, Bool.not_eq_eq_eq_not, Bool.not_true] at hr
      simp [List.takeWhile_cons, hr]
  have hdrop : (natChars n ++ r).dropWhile (fun c => c.isDigit) = r := by
    rw [List.dropWhile_append_of_pos (natChars_isDigit n)]
    cases r with
    | nil => simp
    | cons c t =>
      simp only [headFailsB, Bool.not_eq_eq_eq_not, Bool.not_true] at hr
      simp [List.dropWhile_cons, hr]
  unfold parseNat takeDigits
  rw [htake, hdrop]
  cases hn : natChars n with
  | nil => exact absurd hn (natChars_ne_nil n)
  | cons d ds =>
    have : digitsVal (d :: ds) = n := by rw [← hn]; exact digitsVal_natChars n
    simp [this]

/-- Parsing the decimal form of an integer followed by a non-digit
remainder yields that integer and the remainder. -/
theorem parseInt_append (i : Int) (r : List Char)
    (hr : headFailsB (fun c => c.isDigit) r = true) :
    parseInt (intChars i ++ r) = some (i, r) := by
  rcases lt_or_ge i 0 with hneg | hpos
  · have h1 : intChars i = '-' :: natChars i.natAbs := by simp [intChars, hneg]
    rw [h1]
    simp only [List.cons_append, parseInt, ite_true, eq_self_iff_true,
      parseNat_append _ _ hr, Option.map_some]
    have h2 : ((i.natAbs : Int)) = -i := Int.ofNat_natAbs_of_nonpos (le_of_lt hneg)
    simp [h2]
  · have hic : intChars i = natChars i.natAbs := by
      simp [intChars, not_lt.mpr hpos]
    rw [hic]
    cases hn : natChars i.natAbs with
    | nil => exact absurd hn (natChars_ne_nil _)
    | cons d ds =>
      have hd : d.isDigit = true := by
        have := natChars_isDigit i.natAbs d
        rw [hn] at this
        exact this (by simp)
      have hdm : d ≠ '-' := by
        intro h; subst h; simp [Char.isDigit] at hd
      rw [List.cons_append, parseInt, if_neg hdm, ← List.cons_append, ← hn,
        parseNat_append _ _ hr]
      simp [Int.natAbs_of_nonneg hpos]

/-- Hex digit characters produced by hexCh decode to their value. -/
theorem hexVal_hexCh : ∀ d, d < 16 → hexVal (hexCh d) = d := by decide

/-- The JSON string body written by escaping a character list, followed
by the closing quote and a remainder, parses back to that list and
remainder. -/
theorem parseStrBody_escCh (cs : List Char) (r : List Char) :
    parseStrBody ((cs.map escCh).flatten ++ '"' :: r) = some (cs, r) := by
  induction cs with
  | nil =>
    rw [List.map_nil, List.flatten_nil, List.nil_append, parseStrBody.eq_def]
    simp
  | cons c cs ih =>
    simp only [List.map_cons, List.flatten_cons, List.append_assoc]
    by_cases h1 : c = '"'
    · subst h1
      rw [show escCh '"' = ['\\', '"'] from by decide]
      rw [List.cons_append, List.cons_append, parseStrBody.eq_def]
      simp [escDecode, ih]
    by_cases h2 : c = '\\'
    · subst h2
      rw [show escCh '\\' = ['\\', '\\'] from by decide]
      rw [List.cons_append, List.cons_append, parseStrBody.eq_def]
      simp [escDecode, ih]
    by_cases h3 : c = '\n'
    · subst h3
      rw [show escCh '\n' = ['\\', 'n'] from by decide]
      rw [List.cons_append, List.cons_append, parseStrBody.eq_def]
      simp [escDecode, ih]
    by_cases h4 : c = '\t'
    · subst h4
      rw [show escCh '\t' = ['\\', 't'] from by decide]
      rw [List.cons_append, List.cons_append, parseStrBody.eq_def]
      simp [escDecode, ih]
    by_cases h5 : c = '\r'
    · subst h5
      rw [show escCh '\r' = ['\\', 'r'] from by decide]
      rw [List.cons_append, List.cons_append, parseStrBody.eq_def]
      simp [escDecode, ih]
    by_cases h6 : c = Char.ofNat 8
    · subst h6
      rw [show escCh (Char.ofNat 8) = ['\\', 'b'] from by decide]
      rw [List.cons_append, List.cons_append, parseStrBody.eq_def]
      simp [escDecode, ih]
    by_cases h7 : c = Char.ofNat 12
    · subst h7
      rw [show escCh (Char.ofNat 12) = ['\\', 'f'] from by decide]
      rw [List.cons_append, List.cons_append, parseStrBody.eq_def]
      simp [escDecode, ih]
    by_cases h8 : c.toNat < 32
    · rw [show escCh c =
          ['\\', 'u', '0', '0', hexCh (c.toNat / 16), hexCh (c.toNat % 16)] from by
        simp [escCh, h1, h2, h3, h4, h5, h6, h7, h8]]
      simp only [List.cons_append]
      rw [parseStrBody.eq_def]
      have hd1 : c.toNat / 16 < 16 := by omega
      have hd2 : c.toNat % 16 < 16 := by omega
      have hv : ((hexVal '0' * 16 + hexVal '0') * 16 + hexVal (hexCh (c.toNat / 16))) * 16
          + hexVal (hexCh (c.toNat % 16)) = c.toNat := by
        rw [hexVal_hexCh _ hd1, hexVal_hexCh _ hd2]
        rw [show hexVal '0' = 0 from by decide]
        omega
      simp [ih, hv, Char.ofNat_toNat]
    · rw [show escCh c = [c] from by simp [escCh, h1, h2, h3, h4, h5, h6, h7, h8]]
      rw [List.cons_append, parseStrBody.eq_def]
      simp [h1, h2, ih]

/-- A JSON string literal written by strChars followed by a remainder
parses back to the original characters and remainder. -/
theorem parseStrLit_append (s : String) (r : List Char) :
    parseStrLit (strChars s ++ r) = some (s.toList, r) := by
  have h : strChars s ++ r = '"' :: ((s.toList.map escCh).flatten ++ '"' :: r) := by
    simp [strChars]
  rw [h]
  rw [show ∀ X : List Char, parseStrLit ('"' :: X) = parseStrBody X from fun X => rfl]
  exact parseStrBody_escCh _ _

/-- Rebuilding a string from its character list gives the string back. -/
theorem mkString_toList (s : String) : String.mk s.toList = s := rfl

/-- Character list of a rebuilt string. -/
theorem toList_mkString (l : List Char) : (String.mk l).toList = l := rfl

/-- An optional string field written by optStrChars parses back. -/
theorem parseOptStr_append (t : Option String) (r : List Char) :
    parseOptStr (optStrChars t ++ r) = some (t, r) := by
  cases t with
  | none =>
    unfold optStrChars parseOptStr
    rw [dropLit_append]
  | some s =>
    have hq : ∀ X : List Char, dropLit "null".toList ('"' :: X) = none := fun X => rfl
    have h : optStrChars (some s) ++ r =
        '"' :: ((s.toList.map escCh).flatten ++ '"' :: r) := by
      simp [optStrChars, strChars]
    unfold parseOptStr
    rw [h, hq]
    have h2 : parseStrLit ('"' :: ((s.toList.map escCh).flatten ++ '"' :: r)) =
        some (s.toList, r) := parseStrBody_escCh _ _
    rw [h2]
    simp [mkString_toList]

/-- An optional int field written by optIntChars, followed by a
non-digit remainder, parses back. -/
theorem parseOptInt_append (d : Option Int) (r : List Char)
    (hr : headFailsB (fun c => c.isDigit) r = true) :
    parseOptInt (optIntChars d ++ r) = some (d, r) := by
  cases d with
  | none =>
    unfold optIntChars parseOptInt
    rw [dropLit_append]
  | some i =>
    have hdrop : dropLit "null".toList (intChars i ++ r) = none := by
      rcases lt_or_ge i 0 with hneg | hpos
      · rw [show intChars i = '-' :: natChars i.natAbs from by simp [intChars, hneg]]
        rfl
      · rw [show intChars i = natChars i.natAbs from by simp [intChars, not_lt.mpr hpos]]
        cases hn : natChars i.natAbs with
        | nil => exact absurd hn (natChars_ne_nil _)
        | cons d0 ds =>
          have hd : d0.isDigit = true := by
            have h9 := natChars_isDigit i.natAbs d0
            rw [hn] at h9
            exact h9 (by simp)
          have hdm : d0 ≠ 'n' := by
            intro h; subst h; simp [Char.isDigit] at hd
          rw [show ("null".toList : List Char) = 'n' :: "ull".toList from rfl]
          rw [List.cons_append]
          unfold dropLit
          simp [hdm]
    unfold parseOptInt
    rw [show optIntChars (some i) = intChars i from rfl, hdrop, parseInt_append _ _ hr]
    rfl

/-- Round trip of the queue payload serialisation: json.loads recovers
exactly the payload json.dumps stored, for every payload the program can
build. -/
theorem decode_encode (p : Payload) :
    decodePayload (String.mk (encodePayload p)) = some p := by
  have hc1 : ∀ X : List Char,
      headFailsB (fun c => c.isDigit) (", \"chat_title\": ".toList ++ X) = true :=
    fun X => rfl
  have hc2 : ∀ X : List Char,
      headFailsB (fun c => c.isDigit) (", \"text\": ".toList ++ X) = true :=
    fun X => rfl
  have hc3 : ∀ X : List Char,
      headFailsB (fun c => c.isDigit) (", \"date\": ".toList ++ X) = true :=
    fun X => rfl
  unfold decodePayload
  rw [toList_mkString]
  unfold encodePayload parsePayloadChars
  simp only [List.append_assoc]
  rw [dropLit_append]
  simp only [Option.some_bind]
  rw [parseInt_append _ _ (hc1 _)]
  simp only [Option.some_bind]
  rw [dropLit_append]
  simp only [Option.some_bind]
  rw [parseOptStr_append]
  simp only [Option.some_bind]
  rw [dropLit_append]
  simp only [Option.some_bind]
  rw [parseNat_append _ _ (hc3 _)]
  simp only [Option.some_bind]
  rw [dropLit_append]
  simp only [Option.some_bind]
  rw [parseOptInt_append _ _ (hc2 _)]
  simp only [Option.some_bind]
  rw [dropLit_append]
  simp only [Option.some_bind]
  rw [parseStrLit_append]
  simp only [Option.some_bind]
  rw [show ("\x7d".toList : List Char) = ['\x7d'] from rfl]
  rw [show dropLit ['\x7d'] ['\x7d'] = some [] from rfl]
  simp [mkString_toList]

/-- A malformed row at the head of the remaining rows is removed and the
pass continues behind it. -/
theorem resendRows_malformed (send : Payload → PostResult) (i : Nat) (s : String)
    (rest : List (Nat × String)) (h : decodePayload s = none) :
    resendRows send ((i, s) :: rest) = resendRows send rest := by
  simp [resendRows, h]

/-- A row delivered with status 200 is recorded as delivered, removed,
and the pass continues behind it. -/
theorem resendRows_ok (send : Payload → PostResult) (i : Nat) (s : String)
    (rest : List (Nat × String)) (p : Payload) (hp : decodePayload s = some p)
    (h200 : send p = PostResult.status 200) :
    resendRows send ((i, s) :: rest) =
      ((i, p) :: (resendRows send rest).1, (resendRows send rest).2) := by
  simp [resendRows, hp, h200]

/-- A row whose delivery fails (status other than 200 or an exception)
stops the pass: nothing is delivered from this point on and the row and
all later rows remain. -/
theorem resendRows_fail (send : Payload → PostResult) (i : Nat) (s : String)
    (rest : List (Nat × String)) (p : Payload) (hp : decodePayload s = some p)
    (hfail : send p ≠ PostResult.status 200) :
    resendRows send ((i, s) :: rest) = ([], (i, s) :: rest) := by
  cases hsend : send p with
  | status code =>
    have hc : ¬code = 200 := by
      intro h; subst h; exact hfail hsend
    simp [resendRows, hp, hsend, hc]
  | exn => simp [resendRows, hp, hsend]

/-- The rows remaining after a pass form a sublist of the rows it was
given: a pass never adds or reorders rows. -/
theorem resendRows_sublist (send : Payload → PostResult) :
    ∀ rows, (resendRows send rows).2.Sublist rows := by
  intro rows
  induction rows with
  | nil => simp [resendRows]
  | cons e rest ih =>
    obtain ⟨i, s⟩ := e
    cases hd : decodePayload s with
    | none =>
      rw [resendRows_malformed send i s rest hd]
      exact ih.trans (List.sublist_cons_self _ _)
    | some p =>
      cases hsend : send p with
      | status code =>
        by_cases hc : code = 200
        · subst hc
          rw [resendRows_ok send i s rest p hd hsend]
          exact ih.trans (List.sublist_cons_self _ _)
        · rw [resendRows_fail send i s rest p hd (by rw [hsend]; intro h; injection h; omega)]
      | exn =>
        rw [resendRows_fail send i s rest p hd (by rw [hsend]; intro h; cases h)]

/-- Everything a pass delivers was a row of the store it was given. -/
theorem resendRows_delivered_mem (send : Payload → PostResult) :
    ∀ rows j pd, (j, pd) ∈ (resendRows send rows).1 → ∃ s, (j, s) ∈ rows := by
  intro rows
  induction rows with
  | nil => intro j pd h; simp [resendRows] at h
  | cons e rest ih =>
    obtain ⟨i, s⟩ := e
    intro j pd h
    cases hd : decodePayload s with
    | none =>
      rw [resendRows_malformed send i s rest hd] at h
      obtain ⟨s2, hs2⟩ := ih j pd h
      exact ⟨s2, by simp [hs2]⟩
    | some p =>
      cases hsend : send p with
      | status code =>
        by_cases hc : code = 200
        · subst hc
          rw [resendRows_ok send i s rest p hd hsend] at h
          rcases List.mem_cons.mp h with h1 | h1
          · exact ⟨s, by simp [Prod.ext_iff] at h1; simp [h1.1]⟩
          · obtain ⟨s2, hs2⟩ := ih j pd h1
            exact ⟨s2, by simp [hs2]⟩
        · rw [resendRows_fail send i s rest p hd (by rw [hsend]; intro h2; injection h2; omega)] at h
          simp at h
      | exn =>
        rw [resendRows_fail send i s rest p hd (by rw [hsend]; intro h2; cases h2)] at h
        simp at h

/-- A removable prefix (malformed rows and rows the endpoint accepts) is
processed entirely: its well-formed rows are delivered in order and the
pass continues with the rest of the store. -/
theorem resendRows_removable_front (send : Payload → PostResult)
    (done rest : List (Nat × String))
    (hdone : ∀ e ∈ done, removableRow send e) :
    resendRows send (done ++ rest) =
      (deliveredRows done ++ (resendRows send rest).1, (resendRows send rest).2) := by
  induction done with
  | nil => simp [deliveredRows]
  | cons e done ih =>
    obtain ⟨i, s⟩ := e
    have hih := ih (fun e he => hdone e (List.mem_cons_of_mem _ he))
    rcases hdone (i, s) (List.mem_cons_self _ _) with hmal | ⟨p, hp, h200⟩
    · rw [List.cons_append, resendRows_malformed send i s _ hmal, hih]
      simp [deliveredRows, List.filterMap_cons, hmal]
    · rw [List.cons_append, resendRows_ok send i s _ p hp h200, hih]
      simp [deliveredRows, List.filterMap_cons, hp]

/-- C2: a resend pass processes the queued rows in insertion (ascending
id) order; after removing a prefix of rows that decode and are accepted
with status 200 (or are malformed), the first row whose delivery fails
(any non-200 status or an exception) stops the whole pass, and that row
together with every later row remains in the store unchanged and in the
original order, only the prefix having been delivered. -/
theorem resendRows_stops_at_failure (send : Payload → PostResult)
    (done rest : List (Nat × String)) (i : Nat) (s : String) (p : Payload)
    (hdone : ∀ e ∈ done, removableRow send e)
    (hp : decodePayload s = some p)
    (hfail : send p ≠ PostResult.status 200) :
    resendRows send (done ++ (i, s) :: rest) = (deliveredRows done, (i, s) :: rest) := by
  rw [resendRows_removable_front send done _ hdone,
    resendRows_fail send i s rest p hp hfail]
  simp

/-- Witness for C2, the three-entry scenario of the specification: with
three queued payloads and an endpoint that fails exactly on the second,
one pass delivers only the first entry and leaves the second and third
in the store, in order. -/
theorem resendRows_stops_at_failure_witness :
    resendRows
      (fun p => if p.message_id = 2 then PostResult.status 500 else PostResult.status 200)
      [(1, String.mk (encodePayload ⟨-100, some "ch", 1, some 10, "a"⟩)),
       (2, String.mk (encodePayload ⟨-100, some "ch", 2, some 11, "b"⟩)),
       (3, String.mk (encodePayload ⟨-100, some "ch", 3, some 12, "c"⟩))] =
      ([(1, ⟨-100, some "ch", 1, some 10, "a"⟩)],
       [(2, String.mk (encodePayload ⟨-100, some "ch", 2, some 11, "b"⟩)),
        (3, String.mk (encodePayload ⟨-100, some "ch", 3, some 12, "c"⟩))]) := by
  have h := resendRows_stops_at_failure
    (fun p => if p.message_id = 2 then PostResult.status 500 else PostResult.status 200)
    [(1, String.mk (encodePayload ⟨-100, some "ch", 1, some 10, "a"⟩))]
    [(3, String.mk (encodePayload ⟨-100, some "ch", 3, some 12, "c"⟩))]
    2 (String.mk (encodePayload ⟨-100, some "ch", 2, some 11, "b"⟩))
    ⟨-100, some "ch", 2, some 11, "b"⟩
    (by
      intro e he
      simp only [List.mem_singleton] at he
      subst he
      right
      exact ⟨⟨-100, some "ch", 1, some 10, "a"⟩, by decide, by decide⟩)
    (by decide) (by decide)
  exact h.trans (by decide)

/-- C4 as stated is refuted: in a pass over a well-formed row the
endpoint rejects followed by a malformed row, the pass aborts at the
failure before reaching the malformed row, which therefore stays in the
store instead of being deleted. -/
theorem resend_malformed_counterexample :
    decodePayload "oops" = none ∧
    (resendRows (fun _ => PostResult.status 500)
        [(1, String.mk (encodePayload ⟨-100, some "ch", 1, some 10, "a"⟩)), (2, "oops")]).2 =
      [(1, String.mk (encodePayload ⟨-100, some "ch", 1, some 10, "a"⟩)), (2, "oops")] := by
  decide

/-- C4 (amended): every queue row the resend pass reaches whose stored
text is not valid JSON is deleted from the store, is never delivered,
and the pass continues with the remaining rows exactly as if the row
had not been there (rows behind an earlier aborting delivery failure
are not reached and remain). -/
theorem resendRows_malformed_skip (send : Payload → PostResult) (i : Nat) (s : String)
    (rest : List (Nat × String)) (h : decodePayload s = none) :
    resendRows send ((i, s) :: rest) = resendRows send rest ∧
    ((i, s) ∉ rest → (i, s) ∉ (resendRows send ((i, s) :: rest)).2) := by
  refine ⟨resendRows_malformed send i s rest h, fun hni hmem => hni ?_⟩
  rw [resendRows_malformed send i s rest h] at hmem
  exact (resendRows_sublist send rest).subset hmem

/-- Witness for the amended C4: a malformed row followed by a deliverable
row; the malformed row is dropped, the pass continues and delivers the
following row. -/
theorem resendRows_malformed_skip_witness :
    resendRows (fun _ => PostResult.status 200)
        [(1, "oops"), (2, String.mk (encodePayload ⟨-100, some "ch", 2, some 11, "b"⟩))] =
      resendRows (fun _ => PostResult.status 200)
        [(2, String.mk (encodePayload ⟨-100, some "ch", 2, some 11, "b"⟩))] ∧
    (1, "oops") ∉ (resendRows (fun _ => PostResult.status 200)
        [(1, "oops"), (2, String.mk (encodePayload ⟨-100, some "ch", 2, some 11, "b"⟩))]).2 := by
  have h := resendRows_malformed_skip (fun _ => PostResult.status 200) 1 "oops"
    [(2, String.mk (encodePayload ⟨-100, some "ch", 2, some 11, "b"⟩))] (by decide)
  exact ⟨h.1, h.2 (by decide)⟩

/-- C3: a payload that failed delivery is stored as its json.dumps text
and is recoverable from the store by a JSON round trip; when a later
pass reaches it and the endpoint answers 200, the row is delivered once,
deleted from the store (its id is gone from the remaining rows), and no
pass over a store that no longer holds that id can deliver or retain it
again. -/
theorem queue_roundtrip_delete (st : QueueState) (p : Payload)
    (send : Payload → PostResult) (i : Nat) (rest : List (Nat × String))
    (h200 : send p = PostResult.status 200)
    (hfresh : ∀ s, (i, s) ∉ rest) :
    decodePayload (String.mk (encodePayload p)) = some p ∧
    saveToQueue st p =
      ⟨st.rows ++ [(st.nextId, String.mk (encodePayload p))], st.nextId + 1⟩ ∧
    resendRows send ((i, String.mk (encodePayload p)) :: rest) =
      ((i, p) :: (resendRows send rest).1, (resendRows send rest).2) ∧
    (∀ s, (i, s) ∉ (resendRows send ((i, String.mk (encodePayload p)) :: rest)).2) ∧
    (∀ send' q, (∀ s, (i, s) ∉ q) →
      (∀ pd, (i, pd) ∉ (resendRows send' q).1) ∧ ∀ s, (i, s) ∉ (resendRows send' q).2) := by
  have hrt := decode_encode p
  refine ⟨hrt, rfl, resendRows_ok send i _ rest p hrt h200, ?_, ?_⟩
  · intro s hmem
    rw [resendRows_ok send i _ rest p hrt h200] at hmem
    exact hfresh s ((resendRows_sublist send rest).subset hmem)
  · intro send' q hq
    constructor
    · intro pd hdel
      obtain ⟨s, hs⟩ := resendRows_delivered_mem send' q i pd hdel
      exact hq s hs
    · intro s hmem
      exact hq s ((resendRows_sublist send' q).subset hmem)

/-- Witness for C3 at a concrete payload, store and oracle. -/
theorem queue_roundtrip_delete_witness :
    decodePayload (String.mk (encodePayload ⟨-100, some "ch", 9, none, "hi"⟩)) =
      some ⟨-100, some "ch", 9, none, "hi"⟩ ∧
    saveToQueue ⟨[], 1⟩ ⟨-100, some "ch", 9, none, "hi"⟩ =
      ⟨[] ++ [(1, String.mk (encodePayload ⟨-100, some "ch", 9, none, "hi"⟩))], 1 + 1⟩ ∧
    resendRows (fun _ => PostResult.status 200)
        ((7, String.mk (encodePayload ⟨-100, some "ch", 9, none, "hi"⟩)) :: []) =
      ((7, ⟨-100, some "ch", 9, none, "hi"⟩) ::
          (resendRows (fun _ => PostResult.status 200) []).1,
        (resendRows (fun _ => PostResult.status 200) []).2) ∧
    (∀ s, (7, s) ∉ (resendRows (fun _ => PostResult.status 200)
        ((7, String.mk (encodePayload ⟨-100, some "ch", 9, none, "hi"⟩)) :: [])).2) ∧
    (∀ send' q, (∀ s, (7, s) ∉ q) →
      (∀ pd, (7, pd) ∉ (resendRows send' q).1) ∧ ∀ s, (7, s) ∉ (resendRows send' q).2) :=
  queue_roundtrip_delete ⟨[], 1⟩ ⟨-100, some "ch", 9, none, "hi"⟩
    (fun _ => PostResult.status 200) 7 [] rfl (fun s h => by simp at h)

/-- The collection loop gathers exactly the first count messages of the
stream (when the accumulator is still short of the count). -/
theorem collectMsgs_take (count : Nat) :
    ∀ stream acc, acc.length < count →
      collectMsgs count acc stream = acc ++ stream.take (count - acc.length) := by
  intro stream
  induction stream with
  | nil => intro acc h; simp [collectMsgs]
  | cons m rest ih =>
    intro acc h
    by_cases hc : count ≤ (acc ++ [m]).length
    · have h1 : count - acc.length = 1 := by
        simp only [List.length_append, List.length_singleton] at hc
        omega
      rw [show collectMsgs count acc (m :: rest) = acc ++ [m] from by
        rw [collectMsgs, if_pos hc]]
      rw [h1, List.take_succ_cons, List.take_zero]
    · have hlt : (acc ++ [m]).length < count := lt_of_not_ge hc
      rw [show collectMsgs count acc (m :: rest) = collectMsgs count (acc ++ [m]) rest from by
        rw [collectMsgs, if_neg hc]]
      rw [ih _ hlt]
      have h2 : count - acc.length = (count - (acc ++ [m]).length) + 1 := by
        simp only [List.length_append, List.length_singleton] at hlt ⊢
        omega
      rw [h2, List.take_succ_cons, List.append_assoc, List.singleton_append]

/-- The processing loop attempts every fetched message: one result per
message, in order. -/
theorem historyLoop_length (proc : Msg → Except String Unit) :
    ∀ msgs, (historyLoop proc msgs).length = msgs.length := by
  intro msgs
  induction msgs with
  | nil => rfl
  | cons m rest ih => simp [historyLoop, ih]

/-- The processing loop distributes over concatenation of the message
list. -/
theorem historyLoop_append (proc : Msg → Except String Unit) :
    ∀ a b, historyLoop proc (a ++ b) = historyLoop proc a ++ historyLoop proc b := by
  intro a b
  induction a with
  | nil => rfl
  | cons m rest ih => simp [historyLoop, ih]

/-- C5 (amended): for every sequence of available messages and every
positive limit, the history export processes (forwards or queues)
exactly min(limit, number of available messages) messages; processing
itself never raises in the embedding, so every fetched message counts. -/
theorem readHistory_count (available : List Msg) (count : Nat) (h : 0 < count) :
    processedCount (readHistoryRun (fun _ => Except.ok ()) available count) =
      min count available.length := by
  have hne : ¬count = 0 := Nat.pos_iff_ne_zero.mp h
  have hcollect : collectMsgs count [] (chatHistory available count) =
      (chatHistory available count).take count := by
    rw [collectMsgs_take count _ [] (by simpa using h)]
    simp
  unfold readHistoryRun processedCount
  have hall : ∀ res : List (Msg × Bool),
      res = historyLoop (fun _ => Except.ok ()) ((collectMsgs count []
        (chatHistory available count)).reverse) →
      res.filter (fun r => r.2) = res := by
    intro res hres
    subst hres
    generalize (collectMsgs count [] (chatHistory available count)).reverse = msgs
    induction msgs with
    | nil => rfl
    | cons m rest ih => simp [historyLoop, ih]
  rw [hall _ rfl, historyLoop_length, List.length_reverse, hcollect]
  unfold chatHistory
  rw [if_neg hne, List.take_take, min_self, List.length_take]

/-- C5 as stated is refuted at limit 0: pyrogram treats limit 0 as
unlimited, so the stream is nonempty, and the break check (len >= 0)
fires only after the first append; with one available message the export
processes 1 message although min 0 1 = 0. -/
theorem readHistory_zero_counterexample :
    processedCount (readHistoryRun (fun _ => Except.ok ())
        [⟨3, -100, some "ch", none, some 5, some "x", none⟩] 0) = 1 ∧
    ¬(1 : Nat) = min 0 1 := by decide

/-- C8: when processing one message of a history export raises, that
message alone is skipped (recorded unprocessed) and the loop still
attempts every earlier and every later message, producing one result per
fetched message. -/
theorem historyLoop_skips (proc : Msg → Except String Unit) (pre post : List Msg)
    (m : Msg) (e : String) (hm : proc m = Except.error e) :
    historyLoop proc (pre ++ m :: post) =
      historyLoop proc pre ++ (m, false) :: historyLoop proc post ∧
    (historyLoop proc (pre ++ m :: post)).length = pre.length + 1 + post.length := by
  constructor
  · rw [historyLoop_append]
    simp [historyLoop, hm]
  · rw [historyLoop_length]
    simp only [List.length_append, List.length_cons]
    omega

/-- Witness for C8: the middle of three messages raises; the loop skips
it and still processes the first and third. -/
theorem historyLoop_skips_witness :
    historyLoop (fun m => if m.id = 2 then Except.error "boom" else Except.ok ())
        ([(⟨1, -100, none, none, none, none, none⟩ : Msg)] ++
          (⟨2, -100, none, none, none, none, none⟩ : Msg) ::
          [(⟨3, -100, none, none, none, none, none⟩ : Msg)]) =
      [(⟨1, -100, none, none, none, none, none⟩, true),
       (⟨2, -100, none, none, none, none, none⟩, false),
       (⟨3, -100, none, none, none, none, none⟩, true)] ∧
    (historyLoop (fun m => if m.id = 2 then Except.error "boom" else Except.ok ())
        ([(⟨1, -100, none, none, none, none, none⟩ : Msg)] ++
          (⟨2, -100, none, none, none, none, none⟩ : Msg) ::
          [(⟨3, -100, none, none, none, none, none⟩ : Msg)])).length = 3 := by
  have h := historyLoop_skips
    (fun m => if m.id = 2 then Except.error "boom" else Except.ok ())
    [(⟨1, -100, none, none, none, none, none⟩ : Msg)]
    [(⟨3, -100, none, none, none, none, none⟩ : Msg)]
    (⟨2, -100, none, none, none, none, none⟩ : Msg) "boom" rfl
  exact ⟨h.1.trans (by decide), h.2.trans (by decide)⟩

/-- Witness for the amended C5: two available messages, limit 5. -/
theorem readHistory_count_witness :
    processedCount (readHistoryRun (fun _ => Except.ok ())
        [⟨1, -100, none, none, none, none, none⟩,
         ⟨2, -100, none, none, none, none, none⟩] 5) = min 5 2 := by
  have h := readHistory_count
    [⟨1, -100, none, none, none, none, none⟩,
     ⟨2, -100, none, none, none, none, none⟩] 5 (by decide)
  simpa using h

/-- Unfolding equation of the polling inner loop on a cons. -/
theorem pollFold_cons (last : Nat) (acc : List Msg) (m : Msg) (rest : List Msg) :
    pollFold (last, acc) (m :: rest) =
      if last < m.id then pollFold (m.id, acc ++ [m]) rest
      else pollFold (last, acc) rest := rfl

/-- The last-seen id never decreases along the polling inner loop. -/
theorem pollFold_mono : ∀ (msgs : List Msg) (last : Nat) (acc : List Msg),
    last ≤ (pollFold (last, acc) msgs).1 := by
  intro msgs
  induction msgs with
  | nil => intro last acc; exact le_rfl
  | cons m rest ih =>
    intro last acc
    rw [pollFold_cons]
    by_cases h : last < m.id
    · rw [if_pos h]
      exact le_of_lt (lt_of_lt_of_le h (ih _ _))
    · rw [if_neg h]
      exact ih _ _

/-- The last-seen id is overwritten only by the id of a processed
message strictly above its current value: along the inner loop the final
value is either the initial one or the id of a walked message strictly
above the initial value. -/
theorem pollFold_strict : ∀ (msgs : List Msg) (last : Nat) (acc : List Msg),
    (pollFold (last, acc) msgs).1 = last ∨
      ∃ m ∈ msgs, (pollFold (last, acc) msgs).1 = m.id ∧ last < m.id := by
  intro msgs
  induction msgs with
  | nil => intro last acc; exact Or.inl rfl
  | cons m rest ih =>
    intro last acc
    rw [pollFold_cons]
    by_cases h : last < m.id
    · rw [if_pos h]
      rcases ih m.id (acc ++ [m]) with h1 | ⟨m2, hm2, he, hlt⟩
      · exact Or.inr ⟨m, List.mem_cons_self _ _, h1, h⟩
      · exact Or.inr ⟨m2, List.mem_cons_of_mem _ hm2, he, lt_trans h hlt⟩
    · rw [if_neg h]
      rcases ih last acc with h1 | ⟨m2, hm2, he, hlt⟩
      · exact Or.inl h1
      · exact Or.inr ⟨m2, List.mem_cons_of_mem _ hm2, he, hlt⟩

/-- A message processed by the inner loop either was already accumulated
or has id strictly above the last-seen value the loop started from. -/
theorem pollFold_processed : ∀ (msgs : List Msg) (last : Nat) (acc : List Msg)
    (x : Msg), x ∈ (pollFold (last, acc) msgs).2 → x ∈ acc ∨ last < x.id := by
  intro msgs
  induction msgs with
  | nil => intro last acc x hx; exact Or.inl hx
  | cons m rest ih =>
    intro last acc x hx
    rw [pollFold_cons] at hx
    by_cases h : last < m.id
    · rw [if_pos h] at hx
      rcases ih m.id (acc ++ [m]) x hx with h1 | h1
      · rcases List.mem_append.mp h1 with h2 | h2
        · exact Or.inl h2
        · simp only [List.mem_singleton] at h2
          subst h2
          exact Or.inr h
      · exact Or.inr (lt_trans h h1)
    · rw [if_neg h] at hx
      exact ih last acc x hx

/-- The per-channel step never lowers the last-seen id. -/
theorem pollChannel_mono (last : Nat) (fetched : List Msg) :
    last ≤ (pollChannel last fetched).1 :=
  pollFold_mono _ _ _

/-- Every message the per-channel step processes has id strictly above
the last-seen value the step started from. -/
theorem pollChannel_processed (last : Nat) (fetched : List Msg) (x : Msg)
    (h : x ∈ (pollChannel last fetched).2) : last < x.id := by
  rcases pollFold_processed _ _ _ _ h with h1 | h1
  · simp at h1
  · exact h1

/-- Unfolding equation of a polling cycle on a cons of channels. -/
theorem pollCycle_cons (fetch : Int → List Msg) (ch : Int) (chans : List Int)
    (lastIds : Int → Nat) :
    pollCycle fetch (ch :: chans) lastIds =
      ((pollCycle fetch chans
          (fun c => if c = ch then (pollChannel (lastIds ch) (fetch ch)).1
            else lastIds c)).1,
        (pollChannel (lastIds ch) (fetch ch)).2.map (fun m => (ch, m)) ++
          (pollCycle fetch chans
            (fun c => if c = ch then (pollChannel (lastIds ch) (fetch ch)).1
              else lastIds c)).2) := rfl

/-- A polling cycle never lowers any last-seen entry. -/
theorem pollCycle_mono (fetch : Int → List Msg) : ∀ (chans : List Int)
    (lastIds : Int → Nat) (ch : Int),
    lastIds ch ≤ (pollCycle fetch chans lastIds).1 ch := by
  intro chans
  induction chans with
  | nil => intro lastIds ch; exact le_rfl
  | cons c chans ih =>
    intro lastIds ch
    rw [pollCycle_cons]
    refine le_trans ?_ (ih _ ch)
    by_cases hc : ch = c
    · subst hc
      simp only [if_pos rfl]
      exact pollChannel_mono _ _
    · simp only [if_neg hc]
      exact le_rfl

/-- Every (channel, message) pair a cycle processes has message id
strictly above that channel's last-seen entry at the start of the
cycle. -/
theorem pollCycle_processed (fetch : Int → List Msg) : ∀ (chans : List Int)
    (lastIds : Int → Nat) (ch : Int) (x : Msg),
    (ch, x) ∈ (pollCycle fetch chans lastIds).2 → lastIds ch < x.id := by
  intro chans
  induction chans with
  | nil => intro lastIds ch x hx; simp [pollCycle] at hx
  | cons c chans ih =>
    intro lastIds ch x hx
    rw [pollCycle_cons] at hx
    rcases List.mem_append.mp hx with h1 | h1
    · obtain ⟨m, hm, he⟩ := List.mem_map.mp h1
      obtain ⟨he1, he2⟩ := Prod.mk.injEq .. ▸ he
      subst he1
      subst he2
      exact pollChannel_processed _ _ _ hm
    · have h2 := ih _ ch x h1
      by_cases hc : ch = c
      · subst hc
        rw [if_pos rfl] at h2
        exact lt_of_le_of_lt (pollChannel_mono _ _) h2
      · rw [if_neg hc] at h2
        exact h2

/-- The polling daemon never lowers any last-seen entry across cycles. -/
theorem pollRun_mono : ∀ (fetches : List (Int → List Msg)) (chans : List Int)
    (lastIds : Int → Nat) (ch : Int),
    lastIds ch ≤ (pollRun fetches chans lastIds).1 ch := by
  intro fetches
  induction fetches with
  | nil => intro chans lastIds ch; exact le_rfl
  | cons fetch fetches ih =>
    intro chans lastIds ch
    exact le_trans (pollCycle_mono fetch chans lastIds ch) (ih chans _ ch)

/-- C10: the in-memory last-seen entry of the polling loop is
monotonically non-decreasing: the per-channel step only ever overwrites
it with the id of a processed message strictly greater than its current
value (otherwise it is unchanged), and across whole cycles of the
daemon every entry of the map is non-decreasing. -/
theorem poll_lastId_monotone (last : Nat) (msgs : List Msg)
    (fetches : List (Int → List Msg)) (chans : List Int)
    (lastIds : Int → Nat) (ch : Int) :
    last ≤ (pollChannel last msgs).1 ∧
    ((pollChannel last msgs).1 = last ∨
      ∃ m ∈ msgs, (pollChannel last msgs).1 = m.id ∧ last < m.id) ∧
    lastIds ch ≤ (pollRun fetches chans lastIds).1 ch := by
  refine ⟨pollChannel_mono _ _, ?_, pollRun_mono _ _ _ _⟩
  rcases pollFold_strict msgs.reverse last [] with h | ⟨m, hm, he, hlt⟩
  · exact Or.inl h
  · exact Or.inr ⟨m, List.mem_reverse.mp hm, he, hlt⟩

/-- C7: a fetched message is processed in a polling cycle only if its id
strictly exceeds the stored last-seen id of its channel at the start of
that cycle, and consequently a message whose id is at or below the
stored last-seen id of its channel is never delivered by that or any
later cycle of the daemon. -/
theorem poll_no_redelivery (fetch : Int → List Msg)
    (fetches : List (Int → List Msg)) (chans : List Int)
    (lastIds : Int → Nat) (ch : Int) (m : Msg)
    (hm : m.id ≤ lastIds ch) :
    (∀ ch2 x, (ch2, x) ∈ (pollCycle fetch chans lastIds).2 → lastIds ch2 < x.id) ∧
    (ch, m) ∉ (pollRun fetches chans lastIds).2 := by
  constructor
  · intro ch2 x hx
    exact pollCycle_processed fetch chans lastIds ch2 x hx
  · have aux : ∀ (fs : List (Int → List Msg)) (li : Int → Nat),
        m.id ≤ li ch → (ch, m) ∉ (pollRun fs chans li).2 := by
      intro fs
      induction fs with
      | nil => intro li h hmem; simp [pollRun] at hmem
      | cons f fs ih =>
        intro li h hmem
        rw [show pollRun (f :: fs) chans li =
            ((pollRun fs chans (pollCycle f chans li).1).1,
              (pollCycle f chans li).2 ++
                (pollRun fs chans (pollCycle f chans li).1).2) from rfl] at hmem
        rcases List.mem_append.mp hmem with h1 | h1
        · exact absurd (pollCycle_processed f chans li ch m h1) (not_lt.mpr h)
        · exact ih _ (le_trans h (pollCycle_mono f chans li ch)) h1
    exact aux fetches lastIds hm

/-- Witness for C7: one channel, a stored last-seen id of 10, and a
fetch that returns the already-seen message with id 10. -/
theorem poll_no_redelivery_witness :
    (∀ ch2 x, (ch2, x) ∈ (pollCycle
        (fun _ => [⟨10, -5, none, none, none, none, none⟩]) [(-5 : Int)]
        (fun _ => 10)).2 → (fun _ => (10 : Nat)) ch2 < x.id) ∧
    ((-5 : Int), (⟨10, -5, none, none, none, none, none⟩ : Msg)) ∉
      (pollRun [fun _ => [⟨10, -5, none, none, none, none, none⟩]] [(-5 : Int)]
        (fun _ => 10)).2 :=
  poll_no_redelivery (fun _ => [⟨10, -5, none, none, none, none, none⟩])
    [fun _ => [⟨10, -5, none, none, none, none, none⟩]] [(-5 : Int)]
    (fun _ => 10) (-5) ⟨10, -5, none, none, none, none, none⟩ (Nat.le_refl 10)

/-- A whitespace character never starts a link match. -/
theorem atUrl_ws_head (c : Char) (cs : List Char) (h : isWS c = true) :
    atUrl (c :: cs) = false := by
  have hc := h
  simp only [isWS, Bool.or_eq_true, decide_eq_true_eq] at hc
  rcases hc with ((rfl | rfl) | rfl) | rfl <;> simp [atUrl, startsWithL]

/-- Unfolding equation of the link-stripping walk on a cons. -/
theorem stripLinksGo_cons (sk : Bool) (c : Char) (cs : List Char) :
    stripLinksGo sk (c :: cs) =
      if sk && !isWS c then stripLinksGo true cs
      else if atUrl (c :: cs) then stripLinksGo true cs
      else c :: stripLinksGo false cs := rfl

/-- Unfolding equation of startsWithL on two conses. -/
theorem startsWithL_cons (p c : Char) (ps cs : List Char) :
    startsWithL (p :: ps) (c :: cs) =
      if p = c then startsWithL ps cs else false := rfl

/-- In the skipping state the walk emits nothing before the next
whitespace character: its output is empty or starts with whitespace. -/
theorem stripLinksGo_true_wshead : ∀ l, WSheadB (stripLinksGo true l) = true := by
  intro l
  induction l with
  | nil => rfl
  | cons c cs ih =>
    rw [stripLinksGo_cons]
    by_cases hws : isWS c
    · rw [if_neg (by simp [hws]), if_neg (by simp [atUrl_ws_head c cs hws])]
      simpa [WSheadB] using hws
    · rw [if_pos (by simp [hws])]
      exact ih

/-- A nonempty whitespace-free pattern cannot start an empty or
whitespace-headed text. -/
theorem startsWithL_nonws_wshead (p : Char) (ps out : List Char)
    (hp : isWS p = false) (hout : WSheadB out = true) :
    startsWithL (p :: ps) out = false := by
  cases out with
  | nil => rfl
  | cons c cs =>
    rw [startsWithL_cons, if_neg]
    intro he
    rw [he, show isWS c = true from hout] at hp
    cases hp

/-- A nonempty whitespace-free prefix of the link-stripped text was
already a prefix of the original text: stripping only removes link
runs, whose removal leaves whitespace (or the end) at the splice
point. -/
theorem stripLinks_front_match : ∀ (l t : List Char), t ≠ [] →
    (∀ c ∈ t, isWS c = false) →
    startsWithL t (stripLinksGo false l) = true → startsWithL t l = true := by
  intro l
  induction l with
  | nil =>
    intro t hne hnw h
    cases t with
    | nil => exact absurd rfl hne
    | cons t0 ts => exact absurd h (by simp [stripLinksGo, startsWithL])
  | cons c cs ih =>
    intro t hne hnw h
    rw [stripLinksGo_cons, if_neg (by simp)] at h
    cases t with
    | nil => exact absurd rfl hne
    | cons t0 ts =>
      by_cases hurl : atUrl (c :: cs)
      · rw [if_pos hurl] at h
        exact absurd h (by
          rw [startsWithL_nonws_wshead t0 ts _ (hnw t0 (by simp))
            (stripLinksGo_true_wshead cs)]
          simp)
      · rw [if_neg hurl] at h
        rw [startsWithL_cons] at h ⊢
        by_cases he : t0 = c
        · rw [if_pos he] at h ⊢
          cases ts with
          | nil => rfl
          | cons t1 ts2 =>
            exact ih (t1 :: ts2) (by simp)
              (fun a ha => hnw a (List.mem_cons_of_mem _ ha)) h
        · rw [if_neg he] at h
          cases h

/-- The output of the link-stripping walk contains no link match, in
either state. -/
theorem containsUrl_stripLinksGo : ∀ (l : List Char) (sk : Bool),
    containsUrl (stripLinksGo sk l) = false := by
  intro l
  induction l with
  | nil => intro sk; rfl
  | cons c cs ih =>
    intro sk
    rw [stripLinksGo_cons]
    by_cases h1 : sk && !isWS c
    · rw [if_pos h1]; exact ih true
    rw [if_neg h1]
    by_cases h2 : atUrl (c :: cs)
    · rw [if_pos h2]; exact ih true
    rw [if_neg h2]
    have hx : ∀ (m0 : Char) (mt : List Char), mt ≠ [] → (∀ a ∈ mt, isWS a = false) →
        startsWithL (m0 :: mt) (c :: stripLinksGo false cs) = true →
        startsWithL (m0 :: mt) (c :: cs) = true := by
      intro m0 mt hne hnw hsw
      rw [startsWithL_cons] at hsw ⊢
      by_cases he : m0 = c
      · rw [if_pos he] at hsw ⊢
        exact stripLinks_front_match cs mt hne hnw hsw
      · rw [if_neg he] at hsw
        cases hsw
    have hat : atUrl (c :: stripLinksGo false cs) = false := by
      cases hu : atUrl (c :: stripLinksGo false cs) with
      | false => rfl
      | true =>
        exfalso
        rw [atUrl, Bool.or_eq_true, Bool.or_eq_true] at hu
        rcases hu with (hm | hm) | hm
        · have h9 := hx 'h' ['t', 't', 'p', ':', '/', '/'] (by simp) (by decide) hm
          exact h2 (by unfold atUrl; rw [h9]; simp)
        · have h9 := hx 'h' ['t', 't', 'p', 's', ':', '/', '/'] (by simp) (by decide) hm
          exact h2 (by unfold atUrl; rw [h9]; simp)
        · have h9 := hx 't' ['.', 'm', 'e', '/'] (by simp) (by decide) hm
          exact h2 (by unfold atUrl; rw [h9]; simp)
    rw [show containsUrl (c :: stripLinksGo false cs) =
        (atUrl (c :: stripLinksGo false cs) || containsUrl (stripLinksGo false cs)) from rfl]
    rw [hat, ih false]
    rfl

/-- The link-stripped text contains no link match. -/
theorem containsUrl_stripLinks (l : List Char) :
    containsUrl (stripLinks l) = false :=
  containsUrl_stripLinksGo l false

/-- blocks drops a leading whitespace character. -/
theorem blocks_ws_cons (c : Char) (cs : List Char) (h : isWS c = true) :
    blocks (c :: cs) = blocks cs := by
  rw [blocks.eq_def]
  simp [h]

/-- blocks of a non-whitespace-headed text: the leading run, then the
blocks of the remainder. -/
theorem blocks_nonws_cons (c : Char) (cs : List Char) (h : isWS c = false) :
    blocks (c :: cs) =
      (c :: cs.takeWhile (fun x => !isWS x)) :: blocks (cs.dropWhile (fun x => !isWS x)) := by
  rw [blocks.eq_def]
  simp [h]

/-- blocks of the empty text. -/
theorem blocks_nil : blocks [] = [] := by
  rw [blocks.eq_def]

/-- An all-whitespace text has no blocks. -/
theorem blocks_allws (w : List Char) (hw : ∀ c ∈ w, isWS c = true) :
    blocks w = [] := by
  induction w with
  | nil => exact blocks_nil
  | cons c w2 ih =>
    rw [blocks_ws_cons c w2 (hw c (List.mem_cons_self _ _))]
    exact ih (fun c2 hc2 => hw c2 (List.mem_cons_of_mem _ hc2))

/-- A leading all-whitespace segment does not contribute blocks. -/
theorem blocks_append_allws_left (w b : List Char) (hw : ∀ c ∈ w, isWS c = true) :
    blocks (w ++ b) = blocks b := by
  induction w with
  | nil => rfl
  | cons c w2 ih =>
    rw [List.cons_append, blocks_ws_cons c _ (hw c (List.mem_cons_self _ _))]
    exact ih (fun c2 hc2 => hw c2 (List.mem_cons_of_mem _ hc2))

/-- Characters of the leading non-whitespace run are non-whitespace. -/
theorem takeWhile_nonws_mem (cs : List Char) (x : Char)
    (hx : x ∈ cs.takeWhile (fun c => !isWS c)) : isWS x = false := by
  have h := List.mem_takeWhile_imp hx
  simpa using h

/-- What remains after the leading non-whitespace run is empty or starts
with whitespace. -/
theorem dropWhile_nonws_wshead (cs : List Char) :
    WSheadB (cs.dropWhile (fun c => !isWS c)) = true := by
  induction cs with
  | nil => rfl
  | cons c cs2 ih =>
    by_cases hc : isWS c
    · rw [List.dropWhile_cons_of_neg (by simp [hc])]
      simpa [WSheadB] using hc
    · rw [List.dropWhile_cons_of_pos (by simpa using hc)]
      exact ih

/-- Splitting an explicit block-plus-remainder text at the whitespace
boundary. -/
theorem takeWhile_block_split (b r : List Char)
    (hb : ∀ c ∈ b, isWS c = false) (hr : WSheadB r = true) :
    (b ++ r).takeWhile (fun x => !isWS x) = b ∧
    (b ++ r).dropWhile (fun x => !isWS x) = r := by
  have hb2 : ∀ c ∈ b, (fun x => !isWS x) c = true := fun c hc => by simp [hb c hc]
  constructor
  · rw [List.takeWhile_append_of_pos hb2]
    cases r with
    | nil => simp
    | cons h t =>
      rw [List.takeWhile_cons_of_neg (by simp [show isWS h = true from hr])]
      simp
  · rw [List.dropWhile_append_of_pos hb2]
    cases r with
    | nil => simp
    | cons h t =>
      rw [List.dropWhile_cons_of_neg (by simp [show isWS h = true from hr])]

/-- blocks of an explicit block followed by a whitespace-headed
remainder. -/
theorem blocks_block_append (c : Char) (tw r : List Char)
    (hb : ∀ x ∈ (c :: tw), isWS x = false) (hr : WSheadB r = true) :
    blocks ((c :: tw) ++ r) = (c :: tw) :: blocks r := by
  rw [List.cons_append, blocks_nonws_cons c _ (hb c (List.mem_cons_self _ _))]
  obtain ⟨ht, hd⟩ :=
    takeWhile_block_split tw r (fun x hx => hb x (List.mem_cons_of_mem _ hx)) hr
  rw [ht, hd]

/-- A trailing all-whitespace segment does not change the blocks. -/
theorem blocks_append_allws_right (w : List Char) (hw : ∀ c ∈ w, isWS c = true) :
    ∀ (n : Nat) (a : List Char), a.length ≤ n → blocks (a ++ w) = blocks a := by
  have hwsw : WSheadB w = true := by
    cases w with
    | nil => rfl
    | cons c w2 => exact hw c (List.mem_cons_self _ _)
  intro n
  induction n with
  | zero =>
    intro a ha
    have : a = [] := List.length_eq_zero.mp (Nat.le_antisymm ha (Nat.zero_le _))
    subst this
    rw [List.nil_append, blocks_nil, blocks_allws w hw]
  | succ n ih =>
    intro a ha
    cases a with
    | nil => rw [List.nil_append, blocks_nil, blocks_allws w hw]
    | cons c a2 =>
      have ha2 : a2.length ≤ n := by
        simp only [List.length_cons] at ha
        omega
      by_cases hc : isWS c
      · rw [List.cons_append, blocks_ws_cons c _ hc, blocks_ws_cons c a2 hc]
        exact ih a2 ha2
      · have hcf : isWS c = false := by simpa using hc
        have hsplit : a2.takeWhile (fun x => !isWS x) ++ a2.dropWhile (fun x => !isWS x) = a2 :=
          List.takeWhile_append_dropWhile _ _
        have hcb : ∀ x ∈ (c :: a2.takeWhile (fun x => !isWS x)), isWS x = false := by
          intro x hx
          rcases List.mem_cons.mp hx with rfl | hx2
          · exact hcf
          · exact takeWhile_nonws_mem a2 x hx2
        have hdw : WSheadB (a2.dropWhile (fun x => !isWS x)) = true :=
          dropWhile_nonws_wshead a2
        have hform : c :: a2 = (c :: a2.takeWhile (fun x => !isWS x)) ++
            a2.dropWhile (fun x => !isWS x) := by
          rw [List.cons_append, hsplit]
        rw [hform]
        cases hdwe : a2.dropWhile (fun x => !isWS x) with
        | nil =>
          simp only [List.append_nil]
          rw [blocks_block_append c _ w hcb hwsw, blocks_allws w hw]
          have h0 := blocks_block_append c (a2.takeWhile (fun x => !isWS x)) [] hcb rfl
          rw [List.append_nil] at h0
          rw [h0, blocks_nil]
        | cons d dw2 =>
          rw [hdwe] at hdw
          have hdh : WSheadB ((d :: dw2) ++ w) = true := hdw
          rw [List.append_assoc, blocks_block_append c _ ((d :: dw2) ++ w) hcb hdh,
            blocks_block_append c _ (d :: dw2) hcb hdw]
          have hlen : (d :: dw2).length ≤ n := by
            have h1 : (a2.dropWhile (fun x => !isWS x)).length ≤ a2.length :=
              (List.dropWhile_sublist _).length_le
            rw [hdwe] at h1
            omega
          rw [ih (d :: dw2) hlen]

/-- blocks splits at an interior whitespace separator. -/
theorem blocks_append_ws_mid (sep : Char) (hsep : isWS sep = true) (b : List Char) :
    ∀ (n : Nat) (a : List Char), a.length ≤ n →
      blocks (a ++ sep :: b) = blocks a ++ blocks b := by
  intro n
  induction n with
  | zero =>
    intro a ha
    have : a = [] := List.length_eq_zero.mp (Nat.le_antisymm ha (Nat.zero_le _))
    subst this
    rw [List.nil_append, blocks_ws_cons sep b hsep, blocks_nil, List.nil_append]
  | succ n ih =>
    intro a ha
    cases a with
    | nil => rw [List.nil_append, blocks_ws_cons sep b hsep, blocks_nil, List.nil_append]
    | cons c a2 =>
      have ha2 : a2.length ≤ n := by
        simp only [List.length_cons] at ha
        omega
      by_cases hc : isWS c
      · rw [List.cons_append, blocks_ws_cons c _ hc, blocks_ws_cons c a2 hc]
        exact ih a2 ha2
      · have hcf : isWS c = false := by simpa using hc
        have hsplit : a2.takeWhile (fun x => !isWS x) ++ a2.dropWhile (fun x => !isWS x) = a2 :=
          List.takeWhile_append_dropWhile _ _
        have hcb : ∀ x ∈ (c :: a2.takeWhile (fun x => !isWS x)), isWS x = false := by
          intro x hx
          rcases List.mem_cons.mp hx with rfl | hx2
          · exact hcf
          · exact takeWhile_nonws_mem a2 x hx2
        have hdw : WSheadB (a2.dropWhile (fun x => !isWS x)) = true :=
          dropWhile_nonws_wshead a2
        have hform : c :: a2 = (c :: a2.takeWhile (fun x => !isWS x)) ++
            a2.dropWhile (fun x => !isWS x) := by
          rw [List.cons_append, hsplit]
        rw [hform]
        cases hdwe : a2.dropWhile (fun x => !isWS x) with
        | nil =>
          simp only [List.append_nil]
          rw [blocks_block_append c _ (sep :: b) hcb (by simpa [WSheadB] using hsep)]
          have h0 := blocks_block_append c (a2.takeWhile (fun x => !isWS x)) [] hcb rfl
          rw [List.append_nil] at h0
          rw [h0, blocks_nil, blocks_ws_cons sep b hsep]
          rfl
        | cons d dw2 =>
          rw [hdwe] at hdw
          have hdh : WSheadB ((d :: dw2) ++ sep :: b) = true := hdw
          rw [List.append_assoc, blocks_block_append c _ ((d :: dw2) ++ sep :: b) hcb hdh,
            blocks_block_append c _ (d :: dw2) hcb hdw]
          have hlen : (d :: dw2).length ≤ n := by
            have h1 : (a2.dropWhile (fun x => !isWS x)).length ≤ a2.length :=
              (List.dropWhile_sublist _).length_le
            rw [hdwe] at h1
            omega
          rw [ih (d :: dw2) hlen, List.cons_append]

/-- A whitespace-free pattern matches at the start of a block followed
by a whitespace-headed remainder exactly when it matches at the start of
the block: a match never runs past the whitespace boundary. -/
theorem startsWithL_block_bound : ∀ (t b r : List Char),
    (∀ c ∈ t, isWS c = false) → (∀ c ∈ b, isWS c = false) → WSheadB r = true →
    startsWithL t (b ++ r) = startsWithL t b := by
  intro t
  induction t with
  | nil => intro b r _ _ _; rfl
  | cons p ps ih =>
    intro b r ht hb hr
    cases b with
    | nil =>
      rw [List.nil_append,
        startsWithL_nonws_wshead p ps r (ht p (List.mem_cons_self _ _)) hr]
      rfl
    | cons x b2 =>
      rw [List.cons_append, startsWithL_cons, startsWithL_cons]
      by_cases he : p = x
      · rw [if_pos he, if_pos he,
          ih b2 r (fun a ha => ht a (List.mem_cons_of_mem _ ha))
            (fun a ha => hb a (List.mem_cons_of_mem _ ha)) hr]
      · rw [if_neg he, if_neg he]

/-- Link matches of a block followed by a whitespace-headed remainder
are the matches of the block and those of the remainder. -/
theorem containsUrl_block_append : ∀ (b r : List Char),
    (∀ c ∈ b, isWS c = false) → WSheadB r = true →
    containsUrl (b ++ r) = (containsUrl b || containsUrl r) := by
  intro b
  induction b with
  | nil => intro r _ _; simp [containsUrl]
  | cons x b2 ih =>
    intro r hb hr
    rw [List.cons_append,
      show containsUrl (x :: (b2 ++ r)) =
        (atUrl (x :: (b2 ++ r)) || containsUrl (b2 ++ r)) from rfl]
    have hb2 : ∀ c ∈ b2, isWS c = false := fun a ha => hb a (List.mem_cons_of_mem _ ha)
    have hat : atUrl (x :: (b2 ++ r)) = atUrl (x :: b2) := by
      have hx : x :: (b2 ++ r) = (x :: b2) ++ r := by simp
      unfold atUrl
      rw [hx, startsWithL_block_bound _ (x :: b2) r (by decide) hb hr,
        startsWithL_block_bound _ (x :: b2) r (by decide) hb hr,
        startsWithL_block_bound _ (x :: b2) r (by decide) hb hr]
    rw [hat, ih r hb2 hr,
      show containsUrl (x :: b2) = (atUrl (x :: b2) || containsUrl b2) from rfl,
      Bool.or_assoc]

/-- A text contains a link match exactly when one of its non-whitespace
blocks does. -/
theorem containsUrl_blocks : ∀ (n : Nat) (l : List Char), l.length ≤ n →
    containsUrl l = (blocks l).any (fun b => containsUrl b) := by
  intro n
  induction n with
  | zero =>
    intro l hl
    have : l = [] := List.length_eq_zero.mp (Nat.le_antisymm hl (Nat.zero_le _))
    subst this
    rw [blocks_nil]
    rfl
  | succ n ih =>
    intro l hl
    cases l with
    | nil => rw [blocks_nil]; rfl
    | cons c cs =>
      have hcs : cs.length ≤ n := by
        simp only [List.length_cons] at hl
        omega
      by_cases hc : isWS c
      · rw [blocks_ws_cons c cs hc,
          show containsUrl (c :: cs) = (atUrl (c :: cs) || containsUrl cs) from rfl,
          atUrl_ws_head c cs hc, ih cs hcs, Bool.false_or]
      · have hcf : isWS c = false := by simpa using hc
        have hsplit : cs.takeWhile (fun x => !isWS x) ++ cs.dropWhile (fun x => !isWS x) = cs :=
          List.takeWhile_append_dropWhile _ _
        have hcb : ∀ x ∈ (c :: cs.takeWhile (fun x => !isWS x)), isWS x = false := by
          intro x hx
          rcases List.mem_cons.mp hx with rfl | hx2
          · exact hcf
          · exact takeWhile_nonws_mem cs x hx2
        have hdw : WSheadB (cs.dropWhile (fun x => !isWS x)) = true :=
          dropWhile_nonws_wshead cs
        have hform : c :: cs = (c :: cs.takeWhile (fun x => !isWS x)) ++
            cs.dropWhile (fun x => !isWS x) := by
          rw [List.cons_append, hsplit]
        have hlen : (cs.dropWhile (fun x => !isWS x)).length ≤ n :=
          le_trans (List.dropWhile_sublist _).length_le hcs
        rw [hform, containsUrl_block_append _ _ hcb hdw,
          blocks_block_append c _ _ hcb hdw, List.any_cons, ih _ hlen]

/-- Space and tab are whitespace. -/
theorem isSpTab_isWS (c : Char) (h : isSpTab c = true) : isWS c = true := by
  have hc := h
  simp only [isSpTab, Bool.or_eq_true, decide_eq_true_eq] at hc
  rcases hc with rfl | rfl <;> rfl

/-- collapseSpaces leaves a character that is not a space or tab in
place. -/
theorem collapseSpaces_cons_nonsp (c : Char) (cs : List Char) (h : isSpTab c = false) :
    collapseSpaces (c :: cs) = c :: collapseSpaces cs := by
  rw [collapseSpaces.eq_def]
  simp [h]

/-- collapseSpaces on a space or tab followed by another space or tab
drops the first. -/
theorem collapseSpaces_cons_sp_sp (c d : Char) (cs : List Char)
    (hc : isSpTab c = true) (hd : isSpTab d = true) :
    collapseSpaces (c :: d :: cs) = collapseSpaces (d :: cs) := by
  rw [collapseSpaces.eq_def]
  simp [hc, hd]

/-- collapseSpaces on a space or tab at the end of its run emits one
space. -/
theorem collapseSpaces_cons_sp_end (c d : Char) (cs : List Char)
    (hc : isSpTab c = true) (hd : isSpTab d = false) :
    collapseSpaces (c :: d :: cs) = ' ' :: collapseSpaces (d :: cs) := by
  rw [collapseSpaces.eq_def]
  simp [hc, hd]

/-- collapseSpaces on a final space or tab. -/
theorem collapseSpaces_sp_nil (c : Char) (hc : isSpTab c = true) :
    collapseSpaces [c] = [' '] := by
  rw [collapseSpaces.eq_def]
  simp [hc]

/-- collapseSpaces passes a non-whitespace prefix through unchanged. -/
theorem collapseSpaces_block (b r : List Char) (hb : ∀ x ∈ b, isWS x = false) :
    collapseSpaces (b ++ r) = b ++ collapseSpaces r := by
  induction b with
  | nil => rfl
  | cons x b2 ih =>
    have hx : isSpTab x = false := by
      cases hxs : isSpTab x with
      | false => rfl
      | true =>
        have h1 := hb x (List.mem_cons_self _ _)
        rw [isSpTab_isWS x hxs] at h1
        cases h1
    rw [List.cons_append, collapseSpaces_cons_nonsp x _ hx,
      ih (fun a ha => hb a (List.mem_cons_of_mem _ ha)), List.cons_append]

/-- collapseSpaces keeps an empty-or-whitespace-headed text
empty-or-whitespace-headed. -/
theorem collapseSpaces_wshead : ∀ l, WSheadB l = true → WSheadB (collapseSpaces l) = true := by
  intro l
  induction l with
  | nil => intro _; rfl
  | cons c cs ih =>
    intro h
    by_cases hsp : isSpTab c
    · cases cs with
      | nil => rw [collapseSpaces_sp_nil c hsp]; rfl
      | cons d cs2 =>
        by_cases hd : isSpTab d
        · rw [collapseSpaces_cons_sp_sp c d cs2 hsp hd]
          exact ih (by simpa [WSheadB] using isSpTab_isWS d hd)
        · rw [collapseSpaces_cons_sp_end c d cs2 hsp (by simpa using hd)]
          rfl
    · rw [collapseSpaces_cons_nonsp c cs (by simpa using hsp)]
      exact h

/-- collapseSpaces preserves the non-whitespace blocks of the text. -/
theorem blocks_collapseSpaces : ∀ (n : Nat) (l : List Char), l.length ≤ n →
    blocks (collapseSpaces l) = blocks l := by
  intro n
  induction n with
  | zero =>
    intro l hl
    have : l = [] := List.length_eq_zero.mp (Nat.le_antisymm hl (Nat.zero_le _))
    subst this
    rfl
  | succ n ih =>
    intro l hl
    cases l with
    | nil => rfl
    | cons c cs =>
      have hcs : cs.length ≤ n := by
        simp only [List.length_cons] at hl
        omega
      by_cases hc : isWS c
      · by_cases hsp : isSpTab c
        · cases cs with
          | nil =>
            rw [collapseSpaces_sp_nil c hsp, blocks_ws_cons _ _ (by decide),
              blocks_ws_cons c [] hc]
          | cons d cs2 =>
            by_cases hd : isSpTab d
            · rw [collapseSpaces_cons_sp_sp c d cs2 hsp hd, ih (d :: cs2) hcs,
                blocks_ws_cons c _ hc]
            · rw [collapseSpaces_cons_sp_end c d cs2 hsp (by simpa using hd),
                blocks_ws_cons _ _ (by decide), ih (d :: cs2) hcs,
                blocks_ws_cons c _ hc]
        · rw [collapseSpaces_cons_nonsp c cs (by simpa using hsp),
            blocks_ws_cons c _ hc, blocks_ws_cons c _ hc]
          exact ih cs hcs
      · have hcf : isWS c = false := by simpa using hc
        have hsplit : cs.takeWhile (fun x => !isWS x) ++ cs.dropWhile (fun x => !isWS x) = cs :=
          List.takeWhile_append_dropWhile _ _
        have hcb : ∀ x ∈ (c :: cs.takeWhile (fun x => !isWS x)), isWS x = false := by
          intro x hx
          rcases List.mem_cons.mp hx with rfl | hx2
          · exact hcf
          · exact takeWhile_nonws_mem cs x hx2
        have hdw : WSheadB (cs.dropWhile (fun x => !isWS x)) = true :=
          dropWhile_nonws_wshead cs
        have hform : c :: cs = (c :: cs.takeWhile (fun x => !isWS x)) ++
            cs.dropWhile (fun x => !isWS x) := by
          rw [List.cons_append, hsplit]
        have hlen : (cs.dropWhile (fun x => !isWS x)).length ≤ n :=
          le_trans (List.dropWhile_sublist _).length_le hcs
        rw [hform, collapseSpaces_block _ _ hcb,
          blocks_block_append c _ _ hcb (collapseSpaces_wshead _ hdw),
          blocks_block_append c _ _ hcb hdw, ih _ hlen]

/-- collapseNewlines leaves a non-newline character in place. -/
theorem collapseNewlines_cons_nonnl (c : Char) (cs : List Char) (h : ¬c = '\n') :
    collapseNewlines (c :: cs) = c :: collapseNewlines cs := by
  rw [collapseNewlines.eq_def]
  simp [h]

/-- collapseNewlines keeps a final newline. -/
theorem collapseNewlines_nl_nil : collapseNewlines ['\n'] = ['\n'] := by
  rw [collapseNewlines.eq_def]
  simp [collapseNewlines]

/-- collapseNewlines keeps a newline followed by a single character. -/
theorem collapseNewlines_nl_one (d : Char) :
    collapseNewlines ['\n', d] = '\n' :: collapseNewlines [d] := by
  rw [collapseNewlines.eq_def]
  simp

/-- collapseNewlines on a newline with at least two lookahead
characters: the newline is dropped exactly when both are newlines. -/
theorem collapseNewlines_nl_cons2 (d e : Char) (rest : List Char) :
    collapseNewlines ('\n' :: d :: e :: rest) =
      if d = '\n' && e = '\n' then collapseNewlines (d :: e :: rest)
      else '\n' :: collapseNewlines (d :: e :: rest) := by
  rw [collapseNewlines.eq_def]
  simp

/-- collapseNewlines passes a non-whitespace prefix through unchanged. -/
theorem collapseNewlines_block (b r : List Char) (hb : ∀ x ∈ b, isWS x = false) :
    collapseNewlines (b ++ r) = b ++ collapseNewlines r := by
  induction b with
  | nil => rfl
  | cons x b2 ih =>
    have hx : ¬x = '\n' := by
      intro he
      have h1 := hb x (List.mem_cons_self _ _)
      rw [he] at h1
      cases h1
    rw [List.cons_append, collapseNewlines_cons_nonnl x _ hx,
      ih (fun a ha => hb a (List.mem_cons_of_mem _ ha)), List.cons_append]

/-- collapseNewlines keeps an empty-or-whitespace-headed text
empty-or-whitespace-headed. -/
theorem collapseNewlines_wshead : ∀ l, WSheadB l = true →
    WSheadB (collapseNewlines l) = true := by
  intro l
  induction l with
  | nil => intro _; rfl
  | cons c cs ih =>
    intro h
    by_cases hc : c = '\n'
    · subst hc
      cases cs with
      | nil => rw [collapseNewlines_nl_nil]; rfl
      | cons d cs2 =>
        cases cs2 with
        | nil => rw [collapseNewlines_nl_one d]; rfl
        | cons e rest =>
          rw [collapseNewlines_nl_cons2 d e rest]
          by_cases hd : d = '\n'
          · by_cases he : e = '\n'
            · rw [if_pos (by simp [hd, he])]
              exact ih (by subst hd; rfl)
            · rw [if_neg (by simp [he])]
              rfl
          · rw [if_neg (by simp [hd])]
            rfl
    · rw [collapseNewlines_cons_nonnl c cs hc]
      exact h

/-- collapseNewlines preserves the non-whitespace blocks of the text. -/
theorem blocks_collapseNewlines : ∀ (n : Nat) (l : List Char), l.length ≤ n →
    blocks (collapseNewlines l) = blocks l := by
  intro n
  induction n with
  | zero =>
    intro l hl
    have : l = [] := List.length_eq_zero.mp (Nat.le_antisymm hl (Nat.zero_le _))
    subst this
    rfl
  | succ n ih =>
    intro l hl
    cases l with
    | nil => rfl
    | cons c cs =>
      have hcs : cs.length ≤ n := by
        simp only [List.length_cons] at hl
        omega
      by_cases hcnl : c = '\n'
      · subst hcnl
        cases cs with
        | nil => rw [collapseNewlines_nl_nil]
        | cons d cs2 =>
          cases cs2 with
          | nil =>
            rw [collapseNewlines_nl_one d, blocks_ws_cons _ _ (by decide),
              blocks_ws_cons _ _ (by decide)]
            exact ih [d] (by simpa using hcs)
          | cons e rest =>
            have hb : ∀ xs : List Char, blocks ('\n' :: xs) = blocks xs :=
              fun xs => blocks_ws_cons '\n' xs (by decide)
            rw [collapseNewlines_nl_cons2 d e rest]
            by_cases hd : d = '\n'
            · by_cases he : e = '\n'
              · subst hd; subst he
                rw [if_pos (by simp), ih ('\n' :: '\n' :: rest) hcs]
                simp only [hb]
              · subst hd
                rw [if_neg (by simp [he])]
                simp only [hb]
                rw [ih ('\n' :: e :: rest) hcs]
                simp only [hb]
            · rw [if_neg (by simp [hd])]
              simp only [hb]
              exact ih (d :: e :: rest) hcs
      · by_cases hc : isWS c
        · rw [collapseNewlines_cons_nonnl c cs hcnl, blocks_ws_cons c _ hc,
            blocks_ws_cons c _ hc]
          exact ih cs hcs
        · have hcf : isWS c = false := by simpa using hc
          have hsplit : cs.takeWhile (fun x => !isWS x) ++
              cs.dropWhile (fun x => !isWS x) = cs :=
            List.takeWhile_append_dropWhile _ _
          have hcb : ∀ x ∈ (c :: cs.takeWhile (fun x => !isWS x)), isWS x = false := by
            intro x hx
            rcases List.mem_cons.mp hx with rfl | hx2
            · exact hcf
            · exact takeWhile_nonws_mem cs x hx2
          have hdw : WSheadB (cs.dropWhile (fun x => !isWS x)) = true :=
            dropWhile_nonws_wshead cs
          have hform : c :: cs = (c :: cs.takeWhile (fun x => !isWS x)) ++
              cs.dropWhile (fun x => !isWS x) := by
            rw [List.cons_append, hsplit]
          have hlen : (cs.dropWhile (fun x => !isWS x)).length ≤ n :=
            le_trans (List.dropWhile_sublist _).length_le hcs
          rw [hform, collapseNewlines_block _ _ hcb,
            blocks_block_append c _ _ hcb (collapseNewlines_wshead _ hdw),
            blocks_block_append c _ _ hcb hdw, ih _ hlen]

/-- Dropping leading whitespace preserves the blocks. -/
theorem blocks_ltrim : ∀ l : List Char, blocks (l.dropWhile isWS) = blocks l := by
  intro l
  induction l with
  | nil => rfl
  | cons c cs ih =>
    by_cases hc : isWS c
    · rw [List.dropWhile_cons_of_pos hc, ih, blocks_ws_cons c cs hc]
    · rw [List.dropWhile_cons_of_neg (by simpa using hc)]

/-- The text is its right-trimmed part followed by its trailing
whitespace run. -/
theorem rtrim_split (l : List Char) :
    rtrimWS l ++ (l.reverse.takeWhile isWS).reverse = l := by
  rw [rtrimWS, ← List.reverse_append, List.takeWhile_append_dropWhile,
    List.reverse_reverse]

/-- The trailing run removed by the right trim is all whitespace. -/
theorem rtrim_ws_suffix (l : List Char) :
    ∀ c ∈ (l.reverse.takeWhile isWS).reverse, isWS c = true := by
  intro c hc
  rw [List.mem_reverse] at hc
  exact List.mem_takeWhile_imp hc

/-- Dropping trailing whitespace preserves the blocks. -/
theorem blocks_rtrim (l : List Char) : blocks (rtrimWS l) = blocks l := by
  have h := blocks_append_allws_right ((l.reverse.takeWhile isWS).reverse)
    (rtrim_ws_suffix l) (rtrimWS l).length (rtrimWS l) le_rfl
  rw [rtrim_split l] at h
  exact h.symm

/-- Trimming both ends preserves the blocks. -/
theorem blocks_trimWS (l : List Char) : blocks (trimWS l) = blocks l := by
  rw [trimWS, blocks_rtrim, ltrimWS, blocks_ltrim]

/-- Splitting into lines always yields at least one line. -/
theorem splitLines_ne_nil : ∀ l : List Char, splitLinesCL l ≠ [] := by
  intro l
  induction l with
  | nil => simp [splitLinesCL]
  | cons c cs ih =>
    by_cases hc : c = '\n'
    · simp [splitLinesCL, hc]
    · cases hsp : splitLinesCL cs with
      | nil => exact absurd hsp ih
      | cons h t => simp [splitLinesCL, hc, hsp]

/-- Joining lines commutes with prepending a character to the first
line. -/
theorem joinLinesCL_cons_head (c : Char) (h : List Char) (t : List (List Char)) :
    joinLinesCL ((c :: h) :: t) = c :: joinLinesCL (h :: t) := by
  cases t with
  | nil => rfl
  | cons y t2 => rfl

/-- Joining the split lines reproduces the text. -/
theorem joinLines_splitLines : ∀ l : List Char, joinLinesCL (splitLinesCL l) = l := by
  intro l
  induction l with
  | nil => rfl
  | cons c cs ih =>
    by_cases hc : c = '\n'
    · subst hc
      rw [show splitLinesCL ('\n' :: cs) = [] :: splitLinesCL cs from by
        simp [splitLinesCL]]
      cases hsp : splitLinesCL cs with
      | nil => exact absurd hsp (splitLines_ne_nil cs)
      | cons h t =>
        rw [hsp] at ih
        rw [show joinLinesCL ([] :: h :: t) = [] ++ '\n' :: joinLinesCL (h :: t) from rfl,
          ih]
        rfl
    · cases hsp : splitLinesCL cs with
      | nil => exact absurd hsp (splitLines_ne_nil cs)
      | cons h t =>
        rw [show splitLinesCL (c :: cs) = (c :: h) :: t from by
          simp [splitLinesCL, hc, hsp]]
        rw [hsp] at ih
        rw [joinLinesCL_cons_head, ih]

/-- Blocks of joined lines: the blocks of each line, concatenated. -/
theorem blocks_joinLines : ∀ xs : List (List Char),
    blocks (joinLinesCL xs) = (xs.map (fun x => blocks x)).flatten := by
  intro xs
  induction xs with
  | nil => rw [show joinLinesCL [] = [] from rfl, blocks_nil]; rfl
  | cons x xs2 ih =>
    cases xs2 with
    | nil => simp [joinLinesCL]
    | cons y t =>
      rw [show joinLinesCL (x :: y :: t) = x ++ '\n' :: joinLinesCL (y :: t) from rfl,
        blocks_append_ws_mid '\n' (by decide) (joinLinesCL (y :: t)) x.length x le_rfl,
        ih]
      simp

/-- Trimming every line preserves the blocks of the whole text. -/
theorem blocks_trimLines (l : List Char) : blocks (trimLines l) = blocks l := by
  rw [trimLines, blocks_joinLines]
  have h2 : ∀ xs : List (List Char),
      ((xs.map trimWS).map (fun x => blocks x)).flatten =
        (xs.map (fun x => blocks x)).flatten := by
    intro xs
    induction xs with
    | nil => rfl
    | cons x xs2 ih =>
      simp only [List.map_cons, List.flatten_cons, blocks_trimWS, ih]
  rw [h2, ← blocks_joinLines (splitLinesCL l), joinLines_splitLines]

/-- Wrapper of containsUrl_blocks at the exact length. -/
theorem containsUrl_blocks_self (l : List Char) :
    containsUrl l = (blocks l).any (fun b => containsUrl b) :=
  containsUrl_blocks l.length l le_rfl

/-- Wrapper of blocks_collapseSpaces at the exact length. -/
theorem blocks_collapseSpaces_self (l : List Char) :
    blocks (collapseSpaces l) = blocks l :=
  blocks_collapseSpaces l.length l le_rfl

/-- Wrapper of blocks_collapseNewlines at the exact length. -/
theorem blocks_collapseNewlines_self (l : List Char) :
    blocks (collapseNewlines l) = blocks l :=
  blocks_collapseNewlines l.length l le_rfl

/-- C6 (amended; the cleanup code lives in repository variants outside
src/, so the pipeline is modelled from the specification): cleanup is a
total function, and with link removal enabled and mention and emoji
removal disabled its output contains no substring matching the raw URL
or t.me link pattern, for every input text. -/
theorem cleanup_no_url (l : List Char) :
    containsUrl (cleanupText ⟨true, false, false⟩ l) = false := by
  show containsUrl
      (trimWS (collapseNewlines (trimLines (collapseSpaces (stripLinks l))))) = false
  rw [containsUrl_blocks_self, blocks_trimWS, blocks_collapseNewlines_self,
    blocks_trimLines, blocks_collapseSpaces_self, ← containsUrl_blocks_self,
    containsUrl_stripLinks]

/-- C6 as stated is refuted: with link removal enabled, enabling the
later emoji-removal stage (or the mention-removal stage) can splice the
surrounding characters into a fresh URL, so the cleaned text again
contains a link-pattern match. -/
theorem cleanup_url_counterexample :
    containsUrl (cleanupText ⟨true, false, true⟩ "ht😀tp://x.co".toList) = true ∧
    containsUrl (cleanupText ⟨true, true, false⟩ "http@a://x.co".toList) = true := by
  decide
